import Mathlib

/-!
Verification development for the `citrees` package (conditional inference
trees and forests, `citrees/citrees.py`).

The embedding works over exact rationals in place of IEEE floats, and
represents the external collaborators (the permutation-test kernels of the
`permutation` module, the correlation scorers, numpy's random draws and
sklearn's depth-1 threshold search) as an `Oracles` record of pure
functions of their arguments. The permutation kernels and the threshold
search receive an explicit seed in every call, so each is a deterministic
function of its inputs. The numpy column and bootstrap draws instead go
through the shared global generator (`np.random.seed` followed by a draw):
the `Oracles` functions give the draw each seed produces when no other
thread touches the generator between the seeding and the draw — the
fixed-schedule semantics — and the interleaving of the shared generator
across the threaded per-tree fits is modelled separately (`GlobalRng`,
`twoTreeForestRun`) where a claim turns on it.
Strings of the source (selector names, `max_feats` tokens, class-weight
tokens) are modelled by closed enumerations covering exactly the values the
code distinguishes.
-/

namespace Citrees

abbrev Row := List ℚ
abbrev Mat := List Row

/-- Mean of the indicator `y == label`: `np.mean(y == label)`, the fraction
of entries of `y` equal to `label` (0 for empty `y`, where numpy would give
nan; no caller reaches that case with a nonempty fit). -/
def pFreq (y : List ℚ) (label : ℚ) : ℚ :=
  ((y.filter (fun v => decide (v = label))).length : ℚ) / (y.length : ℚ)

/-- The number of entries of `l` equal to `c`, as a rational. -/
def cntQ (l : List ℚ) (c : ℚ) : ℚ :=
  ((l.filter (fun v => decide (v = c))).length : ℚ)

/-- Modelled from the spec: `gini_index(y, classes)` of the `scorers` module
(code not under src/), the weighted Gini impurity function, in its standard
form `1 - sum over classes of (class frequency)^2`. -/
def gini_index (y : List ℚ) (classes : List ℚ) : ℚ :=
  1 - (classes.map (fun c => pFreq y c ^ 2)).sum

/-- `CITreeClassifier._estimate_proba`: per-class frequency vector over the
class list `labels_`. -/
def estimate_proba (labels : List ℚ) (y : List ℚ) : List ℚ :=
  labels.map (fun l => pFreq y l)

/-- Insert into a weakly sorted list (helper for `npUnique`). -/
def insSorted (a : ℚ) : List ℚ → List ℚ
  | [] => [a]
  | b :: bs => if a ≤ b then a :: b :: bs else b :: insSorted a bs

/-- Ascending sort of a list of rationals (helper for `npUnique`). -/
def sortQ (l : List ℚ) : List ℚ := l.foldr insSorted []

/-- `np.unique`: the distinct values in ascending order. -/
def npUnique (y : List ℚ) : List ℚ := sortQ y.dedup

/-- `np.where(y == label)[0]`: the positions of `y` holding `label`. -/
def whereEq (y : List ℚ) (label : ℚ) : List Nat :=
  (List.range y.length).filter (fun i => decide (y.getD i 0 = label))

/-- `np.min` over a list (0 for the empty list, which no caller reaches). -/
def minQ : List ℚ → ℚ
  | [] => 0
  | [a] => a
  | a :: b :: r => min a (minQ (b :: r))

/-- Elementwise vector addition (`+=` of two equal-length numpy rows). -/
def addVec (a b : List ℚ) : List ℚ := List.zipWith (· + ·) a b

/-- `np.sum(vectors, axis=0)` over length-`p` vectors. -/
def sumVecs (p : Nat) (vs : List (List ℚ)) : List ℚ :=
  vs.foldl addVec (List.replicate p 0)

/-- `np.concatenate` over a list of index arrays. -/
def listConcat (ls : List (List Nat)) : List Nat := ls.foldr (· ++ ·) []

/-- `np.argmax` over one row: the first (lowest) index holding the maximum. -/
def argmaxIdx : List ℚ → Nat
  | [] => 0
  | a :: rest =>
    match rest with
    | [] => 0
    | b :: r =>
      if (b :: r).getD (argmaxIdx (b :: r)) 0 ≤ a then 0 else argmaxIdx (b :: r) + 1

/-- `X[idx]`: row selection by an index list. -/
def selectRows (X : Mat) (idx : List Nat) : Mat := idx.map (fun i => X.getD i [])

/-- `y[idx]`: label selection by an index list. -/
def selectLabels (y : List ℚ) (idx : List Nat) : List ℚ := idx.map (fun i => y.getD i 0)

/-- The values of column `c` over a zipped (row, label) dataset: `X[:, col]`. -/
def colValues (rows : List (Row × ℚ)) (c : Nat) : List ℚ :=
  rows.map (fun rc => rc.1.getD c 0)

/-- The labels of a zipped (row, label) dataset. -/
def labelsOf (rows : List (Row × ℚ)) : List ℚ := rows.map (fun rc => rc.2)

/-- The three values the `selector` argument distinguishes. -/
inductive SelectorKind
  | pearson
  | distance
  | hybrid
deriving DecidableEq

/-- The `max_feats` argument: one of the tokens `sqrt`, `log`, `all`, or an
explicit integer (`-1`, the default, stands for unspecified). -/
inductive MaxFeatsArg
  | sqrt
  | log
  | all
  | int (i : Int)
deriving DecidableEq

/-- The `class_weight` tokens of the forest (`None` is `Option.none`). -/
inductive ClassWeight
  | balanced
  | stratify
deriving DecidableEq

/-- The configuration errors the constructors raise (`ValueError`s), and the
runtime numpy errors prediction aggregation can raise. -/
inductive CErr
  | alphaError
  | nPermError
  | maxFeatsError
  | nEstimatorsError
  | broadcastError
  | axisError
deriving DecidableEq

/-- The external collaborators, as pure functions of their full argument
lists (each call in the source passes an explicit seed).
`permPcor x y B seed` is `permutation_test_pcor`; `permDcor x y n B seed`
covers `permutation_test_dcor` and its parallel variant (the source switches
between them on `n < 500` as a performance policy with identical
semantics); `pcor`/`dcor` are the raw correlation magnitudes used by the
hybrid selector; `bestThr x y min_samples_split` is the sklearn depth-1
decision-tree threshold; `colChoice seed p size` is
`np.random.seed(seed); np.random.choice(arange(p), size, replace=False)`;
`bootChoice seed k pool size bayes` is the `k`-th `np.random.choice(pool,
size, replace=True, p)` drawn after `np.random.seed(seed)`, with `p` the
Bayesian bootstrap weights when `bayes` is set; `lnFloorF m` is
`int(np.log(m))`. -/
structure Oracles where
  permPcor : List ℚ → List ℚ → Nat → Int → ℚ
  permDcor : List ℚ → List ℚ → Nat → Nat → Int → ℚ
  pcor : List ℚ → List ℚ → ℚ
  dcor : List ℚ → List ℚ → Nat → ℚ
  bestThr : List ℚ → List ℚ → Nat → ℚ
  colChoice : Int → Nat → Nat → List Nat
  bootChoice : Int → Nat → List Nat → Nat → Bool → List Nat
  lnFloorF : Nat → Nat

/-- The constraints `np.random.choice(pool, size, replace=True, p)` always
satisfies: the draw has exactly `size` elements and each comes from the
pool. -/
structure RngSpec (O : Oracles) : Prop where
  bootLen : ∀ s k pool sz by_, (O.bootChoice s k pool sz by_).length = sz
  bootMem : ∀ s k pool sz by_ i, pool ≠ [] → i ∈ O.bootChoice s k pool sz by_ → i ∈ pool

/-- The keyword arguments of `CITreeBase.__init__` (through
`CITreeClassifier`), with the classifier's defaults. `verbose`/`n_jobs` are
logging and scheduling knobs with no effect on results and are omitted;
`random_state` is the explicit seed (the source draws one from the global
generator when it is absent, so every claim here works with explicit
seeds). -/
structure TreeParams where
  minSamplesSplit : Int := 2
  alpha : ℚ := 1/20
  maxDepth : Int := -1
  maxFeats : MaxFeatsArg := .int (-1)
  nPermutations : Int := 100
  selector : SelectorKind := .pearson
  earlyStopping : Bool := false
  randomState : Int
deriving DecidableEq

/-- `max_feats not in ['sqrt', 'log', 'all', -1]` is the constructor's
rejection test: only those four values pass. -/
def validMaxFeats : MaxFeatsArg → Bool
  | .sqrt | .log | .all => true
  | .int i => i == -1

/-- The attribute state `CITreeBase.__init__` leaves on the object.
`maxDepth = none` models `np.inf` (the `max_depth == -1` branch). -/
structure TreeState where
  alpha : ℚ
  minSamplesSplit : Nat
  nPermutations : Nat
  selector : SelectorKind
  maxFeats : MaxFeatsArg
  earlyStopping : Bool
  maxDepth : Option Nat
  randomState : Int
  splitterCounter : Nat
deriving DecidableEq

/-- The attribute assignments of `CITreeBase.__init__` (after its error
checks): `min_samples_split = max(1, int(...))`,
`max_depth = np.inf if -1 else int(max(1, ...))`, `splitter_counter_ = 0`. -/
def treeStateOf (p : TreeParams) : TreeState :=
  { alpha := p.alpha
    minSamplesSplit := (max 1 p.minSamplesSplit).toNat
    nPermutations := p.nPermutations.toNat
    selector := p.selector
    maxFeats := p.maxFeats
    earlyStopping := p.earlyStopping
    maxDepth := if p.maxDepth = -1 then none else some (max 1 p.maxDepth).toNat
    randomState := p.randomState
    splitterCounter := 0 }

/-- `CITreeBase.__init__`: the error checks in source order, then the
attribute assignments. The `selector` membership check cannot fail for a
representable `SelectorKind` and is therefore not a branch here. -/
def treeInit (p : TreeParams) : Except CErr TreeState :=
  if p.alpha ≤ 0 ∨ 1 < p.alpha then .error .alphaError
  else if p.nPermutations < 0 then .error .nPermError
  else if ¬ validMaxFeats p.maxFeats then .error .maxFeatsError
  else .ok (treeStateOf p)

/-- `max_feats` resolution at the start of `CITreeBase.fit`:
`sqrt -> int(np.sqrt(p))`, `log -> int(np.log(p+1))`, `all` or `-1 -> p`,
any other integer through the residual `int(self.max_feats)` branch. -/
def resolveMaxFeats (lnF : Nat → Nat) (mf : MaxFeatsArg) (p : Nat) : Nat :=
  match mf with
  | .sqrt => Nat.sqrt p
  | .log => lnF (p + 1)
  | .all => p
  | .int i => if i = -1 then p else i.toNat

/-- The resolved per-fit context: the tree's hyperparameters with
`max_feats` already an integer and the class list `labels_` fixed. -/
structure FitCtx where
  alpha : ℚ
  minSamplesSplit : Nat
  maxDepth : Option Nat
  maxFeats : Nat
  nPermutations : Nat
  selector : SelectorKind
  earlyStopping : Bool
  randomState : Int
  labels : List ℚ
deriving DecidableEq

/-- `Node`: in use it has exactly two shapes, the terminal one carrying only
`value` and the internal one carrying `col`, `col_pval`, `threshold`,
`impurity` and both children. -/
inductive Node
  | leaf (value : List ℚ)
  | internal (col : Nat) (colPval : ℚ) (threshold : ℚ) (impurity : ℚ)
      (left : Node) (right : Node)
deriving DecidableEq

/-- The mutable state `_build_tree` threads: `splitter_counter_` and
`feature_importances_`. -/
structure BState where
  counter : Nat
  fi : List ℚ
deriving DecidableEq

/-- `depth < self.max_depth` (`np.inf` compares true). -/
def depthLT (d : Nat) : Option Nat → Bool
  | none => true
  | some m => decide (d < m)

/-- `d ≤ max_depth` (for stating the leaf-depth invariant). -/
def depthLE (d : Nat) : Option Nat → Bool
  | none => true
  | some m => decide (d ≤ m)

/-- The p-value one column gets inside `CITreeBase._selector`: the
dispatch over `selector` between `_selector_pcor`, `_selector_dcor`
(serial or parallel, same semantics) and `_selector_cor_hybrid` (run the
test of whichever raw correlation magnitude is larger, ties to Pearson). -/
def pvalOf (O : Oracles) (cfg : FitCtx) (x y : List ℚ) (n : Nat) : ℚ :=
  match cfg.selector with
  | .pearson => O.permPcor x y cfg.nPermutations cfg.randomState
  | .distance => O.permDcor x y n cfg.nPermutations cfg.randomState
  | .hybrid =>
    if O.dcor x y n ≤ |O.pcor x y| then O.permPcor x y cfg.nPermutations cfg.randomState
    else O.permDcor x y n cfg.nPermutations cfg.randomState

/-- The shared loop of the three selector variants: track the strictly
smallest p-value seen (`none` is the initial `np.inf` best), and return as
soon as the best drops below `alpha` when early stopping is on. -/
def selectorLoop (pval : Nat → ℚ) (es : Bool) (alpha : ℚ) :
    List Nat → Option (Nat × ℚ) → Option (Nat × ℚ)
  | [], best => best
  | c :: cs, best =>
    let pv := pval c
    let better := match best with
      | none => true
      | some cb => decide (pv < cb.2)
    if better then
      if es ∧ pv < alpha then some (c, pv)
      else selectorLoop pval es alpha cs (some (c, pv))
    else selectorLoop pval es alpha cs best

/-- `CITreeBase._selector` over the zipped dataset: `none` is the
`(None, np.inf)` return for an empty candidate list. -/
def selectorRun (O : Oracles) (cfg : FitCtx) (rows : List (Row × ℚ))
    (colIdx : List Nat) : Option (Nat × ℚ) :=
  selectorLoop (fun c => pvalOf O cfg (colValues rows c) (labelsOf rows) rows.length)
    cfg.earlyStopping cfg.alpha colIdx none

/-- Partition rows on `X[:, col] <= threshold` (left) versus `>` (right),
keeping row order, as the `np.where` mask selection does. -/
def splitRows (rows : List (Row × ℚ)) (col : Nat) (thr : ℚ) :
    List (Row × ℚ) × List (Row × ℚ) :=
  (rows.filter (fun rc => decide (rc.1.getD col 0 ≤ thr)),
   rows.filter (fun rc => ! decide (rc.1.getD col 0 ≤ thr)))

/-- `feature_importances_[col] += impurity`. -/
def updAdd (fi : List ℚ) (c : Nat) (v : ℚ) : List ℚ := fi.set c (fi.getD c 0 + v)

/-- `CITreeClassifier._splitter`: threshold from the external depth-1
search, mask partition, weighted Gini impurity decrease, and the
feature-importance update. Returns
(impurity decrease, threshold, left, right, updated importances). -/
def splitterC (O : Oracles) (cfg : FitCtx) (rows : List (Row × ℚ)) (n : Nat)
    (col : Nat) (fi : List ℚ) :
    ℚ × ℚ × List (Row × ℚ) × List (Row × ℚ) × List ℚ :=
  let thr := O.bestThr (colValues rows col) (labelsOf rows) cfg.minSamplesSplit
  let parts := splitRows rows col thr
  let nodeImp := gini_index (labelsOf rows) cfg.labels
  let leftImp := gini_index (labelsOf parts.1) cfg.labels * ((parts.1.length : ℚ) / (n : ℚ))
  let rightImp := gini_index (labelsOf parts.2) cfg.labels * ((parts.2.length : ℚ) / (n : ℚ))
  let imp := nodeImp - (leftImp + rightImp)
  (imp, thr, parts.1, parts.2, updAdd fi col imp)

/-- The terminal-node constructor: `Node(value=self.node_estimate(y))`. -/
def leafNode (cfg : FitCtx) (rows : List (Row × ℚ)) : Node :=
  Node.leaf (estimate_proba cfg.labels (labelsOf rows))

/-- One unfolding of `CITreeBase._build_tree`, with `rec` standing for the
recursive calls: the `n > min_samples_split and depth < max_depth` guard,
the counter increment and the seeded column draw, the selector, the
`col_pval < alpha` test, the splitter, the both-children-nonempty test, and
the recursion into both partitions (left first, as the source does). -/
def buildStep (O : Oracles) (cfg : FitCtx)
    (rec : List (Row × ℚ) → Nat → BState → Node × BState)
    (rows : List (Row × ℚ)) (depth : Nat) (st : BState) : Node × BState :=
  if cfg.minSamplesSplit < rows.length ∧ depthLT depth cfg.maxDepth = true then
    let counter := st.counter + 1
    let seed := cfg.randomState * (counter : Int)
    let p := (rows.headD ([], 0)).1.length
    let colIdx := O.colChoice seed p cfg.maxFeats
    match selectorRun O cfg rows colIdx with
    | none => (leafNode cfg rows, { counter := counter, fi := st.fi })
    | some cb =>
      if cb.2 < cfg.alpha then
        let s := splitterC O cfg rows rows.length cb.1 st.fi
        if s.2.2.1 ≠ [] ∧ s.2.2.2.1 ≠ [] then
          let lres := rec s.2.2.1 (depth + 1) { counter := counter, fi := s.2.2.2.2 }
          let rres := rec s.2.2.2.1 (depth + 1) lres.2
          (Node.internal cb.1 cb.2 s.2.1 s.1 lres.1 rres.1, rres.2)
        else (leafNode cfg rows, { counter := counter, fi := s.2.2.2.2 })
      else (leafNode cfg rows, { counter := counter, fi := st.fi })
  else (leafNode cfg rows, st)

/-- Fuel-indexed tree recursion. With fuel 0 only the empty dataset is
possible on the real recursion paths, and there the guard fails and a leaf
is emitted, which is what this case returns for any rows. -/
def buildTreeF (O : Oracles) (cfg : FitCtx) :
    Nat → List (Row × ℚ) → Nat → BState → Node × BState
  | 0, rows, _, st => (leafNode cfg rows, st)
  | fuel + 1, rows, depth, st => buildStep O cfg (buildTreeF O cfg fuel) rows depth st

/-- `CITreeBase._build_tree`: each recursive call strictly shrinks the row
list (both partitions are nonempty when it recurses), so `rows.length` fuel
always suffices. -/
def buildTree (O : Oracles) (cfg : FitCtx) (rows : List (Row × ℚ))
    (depth : Nat) (st : BState) : Node × BState :=
  buildTreeF O cfg rows.length rows depth st

/-- The fitted tree: the resolved context (`labels_`, resolved `max_feats`),
the root and the normalized `feature_importances_`. -/
structure FittedTree where
  ctx : FitCtx
  root : Node
  featureImportances : List ℚ
deriving DecidableEq

/-- The per-fit context `CITreeClassifier.fit` fixes before building:
`labels_` (`np.unique(y)` when none are passed) and the `max_feats`
resolution from `p = X.shape[1]`. -/
def fitCtxOf (O : Oracles) (ts : TreeState) (X : Mat) (y : List ℚ)
    (labels : Option (List ℚ)) : FitCtx :=
  { alpha := ts.alpha, minSamplesSplit := ts.minSamplesSplit
    maxDepth := ts.maxDepth
    maxFeats := resolveMaxFeats O.lnFloorF ts.maxFeats (X.headD []).length
    nPermutations := ts.nPermutations
    selector := ts.selector, earlyStopping := ts.earlyStopping
    randomState := ts.randomState
    labels := match labels with | some ls => ls | none => npUnique y }

/-- `CITreeClassifier.fit` followed by `CITreeBase.fit`: fix `labels_`
(`np.unique(y)` when none are passed), resolve `max_feats` from
`p = X.shape[1]`, zero the importances, build from depth 0, and normalize
the importances when their sum is positive. The second component is the
object state after the call: `max_feats` now an integer and
`splitter_counter_` advanced (neither is reset by `fit`). -/
def fitTreeC (O : Oracles) (ts : TreeState) (X : Mat) (y : List ℚ)
    (labels : Option (List ℚ)) : FittedTree × TreeState :=
  let cfg := fitCtxOf O ts X y labels
  let p := (X.headD []).length
  let res := buildTree O cfg (X.zip y) 0 { counter := ts.splitterCounter, fi := List.replicate p 0 }
  let s := res.2.fi.sum
  let fi := if 0 < s then res.2.fi.map (fun v => v / s) else res.2.fi
  ({ ctx := cfg, root := res.1, featureImportances := fi },
   { ts with maxFeats := .int (cfg.maxFeats : Int), splitterCounter := res.2.counter })

/-- The accumulated (not yet normalized) `feature_importances_` a tree fit
ends with. -/
def rawFI (O : Oracles) (ts : TreeState) (X : Mat) (y : List ℚ)
    (labels : Option (List ℚ)) : List ℚ :=
  (buildTree O (fitCtxOf O ts X y labels) (X.zip y) 0
    { counter := ts.splitterCounter, fi := List.replicate (X.headD []).length 0 }).2.fi

/-- `CITreeBase.predict_label`: walk the tree, left on
`sample[col] <= threshold`, right otherwise, to a leaf value. -/
def predictLabelNode : Node → Row → List ℚ
  | .leaf v, _ => v
  | .internal c _ thr _ l r, x =>
    if x.getD c 0 ≤ thr then predictLabelNode l x else predictLabelNode r x

/-- `CITreeClassifier.predict_proba`: one leaf value per sample row. -/
def treePredictProba (t : FittedTree) (X : Mat) : Mat :=
  X.map (fun x => predictLabelNode t.root x)

/-- `CITreeClassifier.predict`: `np.argmax(predict_proba(X), axis=1)`. -/
def treePredict (t : FittedTree) (X : Mat) : List Nat :=
  (treePredictProba t X).map argmaxIdx

/-- The keyword arguments of `CIForestBase.__init__` through
`CIForestClassifier`, with the classifier's defaults (`class_weight` is
`'balanced'` there). As for trees, `verbose`/`n_jobs` are omitted and the
seed is explicit. -/
structure ForestParams where
  minSamplesSplit : Int := 2
  alpha : ℚ := 1/20
  maxDepth : Int := -1
  nEstimators : Int := 100
  maxFeats : MaxFeatsArg := .sqrt
  nPermutations : Int := 200
  selector : SelectorKind := .pearson
  earlyStopping : Bool := false
  bootstrap : Bool := true
  bayes : Bool := true
  classWeight : Option ClassWeight := some .balanced
  randomState : Int
deriving DecidableEq

/-- The attribute state `CIForestBase.__init__` leaves on the object.
`maxDepth` is kept as the source keeps it: `-1` as is, anything else as
`int(max(1, max_depth))`. -/
structure ForestState where
  alpha : ℚ
  minSamplesSplit : Int
  nPermutations : Nat
  maxDepth : Int
  nEstimators : Nat
  selector : SelectorKind
  maxFeats : MaxFeatsArg
  bootstrap : Bool
  earlyStopping : Bool
  classWeight : Option ClassWeight
  bayes : Bool
  randomState : Int
deriving DecidableEq

/-- `CIForestBase.__init__`: the error checks in source order (note the
`n_estimators` check is `< 0`, not `< 1`), then the attribute assignments,
among them `n_estimators = int(max(1, n_estimators))`. The `selector` and
`class_weight` membership checks cannot fail for representable values. -/
def forestInit (p : ForestParams) : Except CErr ForestState :=
  if p.alpha ≤ 0 ∨ 1 < p.alpha then .error .alphaError
  else if p.nPermutations < 0 then .error .nPermError
  else if ¬ validMaxFeats p.maxFeats then .error .maxFeatsError
  else if p.nEstimators < 0 then .error .nEstimatorsError
  else .ok
    { alpha := p.alpha
      minSamplesSplit := max 1 p.minSamplesSplit
      nPermutations := p.nPermutations.toNat
      maxDepth := if p.maxDepth = -1 then p.maxDepth else max 1 p.maxDepth
      nEstimators := (max 1 p.nEstimators).toNat
      selector := p.selector
      maxFeats := p.maxFeats
      bootstrap := p.bootstrap
      earlyStopping := p.earlyStopping
      classWeight := p.classWeight
      bayes := p.bayes
      randomState := p.randomState }

/-- The `self.params` dictionary `CIForestBase.__init__` packages for the
per-tree constructors, with `random_state` filled per tree in `fit`. It
holds `alpha`, `min_samples_split`, `n_permutations`, `selector`,
`max_feats`, `early_stopping` (plus `verbose=0`, `n_jobs=1`); `max_depth`
is not among its keys, so each tree is constructed with the `CITreeBase`
default `max_depth=-1` (unbounded). -/
def treeParamsOf (fs : ForestState) (seed : Int) : TreeParams :=
  { alpha := fs.alpha
    minSamplesSplit := fs.minSamplesSplit
    nPermutations := (fs.nPermutations : Int)
    selector := fs.selector
    maxFeats := fs.maxFeats
    earlyStopping := fs.earlyStopping
    randomState := seed }

/-- `stratify_sampled_idx`: per class (in `np.unique` order), draw with
replacement from that class's own index pool, as many as the class holds. -/
def stratify_sampled_idx (O : Oracles) (seed : Int) (y : List ℚ) (bayes : Bool) :
    List (List Nat) :=
  (npUnique y).enum.map (fun kl =>
    O.bootChoice seed kl.1 (whereEq y kl.2) (whereEq y kl.2).length bayes)

/-- `balanced_sampled_idx`: per class, draw with replacement
`int(np.floor(min_class_p * len(y)))` indices from that class's pool. -/
def balanced_sampled_idx (O : Oracles) (seed : Int) (y : List ℚ) (bayes : Bool)
    (minClassP : ℚ) : List (List Nat) :=
  let n := (⌊minClassP * (y.length : ℚ)⌋).toNat
  (npUnique y).enum.map (fun kl => O.bootChoice seed kl.1 (whereEq y kl.2) n bayes)

/-- `normal_sampled_idx`: draw `n` of `arange(n)` with replacement. -/
def normal_sampled_idx (O : Oracles) (seed : Int) (n : Nat) (bayes : Bool) : List Nat :=
  O.bootChoice seed 0 (List.range n) n bayes

/-- `_parallel_fit_classifier`: under `bootstrap`, reseed as
`random_state * (tree_idx + 1)`, draw indices under the `class_weight`
policy, concatenate, and fit the tree on the resampled rows passing the
global class set `np.unique(y)`; otherwise fit on the full data. On the
`class_weight=None` path the source hands the already-flat index array to
`np.concatenate`, which numpy rejects; the embedding keeps this branch
total by concatenating the singleton list, so theorems quantified over
the policies hold a fortiori on the paths the source completes. -/
def parallelFitClassifier (O : Oracles) (ts : TreeState) (X : Mat) (y : List ℚ)
    (n : Nat) (treeIdx : Nat) (bootstrap bayes : Bool) (randomState : Int)
    (classWeight : Option ClassWeight) (minDistP : ℚ) : FittedTree :=
  if bootstrap then
    let rs := randomState * ((treeIdx : Int) + 1)
    let idxs := match classWeight with
      | some .balanced => balanced_sampled_idx O rs y bayes minDistP
      | some .stratify => stratify_sampled_idx O rs y bayes
      | none => [normal_sampled_idx O rs n bayes]
    let idx := listConcat idxs
    (fitTreeC O ts (selectRows X idx) (selectLabels y idx) (some (npUnique y))).1
  else (fitTreeC O ts X y none).1

/-- The fitted forest: `estimators_`, `labels_`, `n_classes_`,
`class_dist_p` and the summed, renormalized `feature_importances_`. -/
structure FittedForest where
  estimators : List FittedTree
  labels : List ℚ
  nClasses : Nat
  classDistP : List ℚ
  featureImportances : List ℚ
deriving DecidableEq

/-- `CIForestClassifier.fit` through `CIForestBase.fit`: instantiate
`n_estimators` trees from `self.params` with per-tree seed
`random_state * (i + 1)`, compute the class distribution, fit every tree
through `_parallel_fit_classifier`, then sum and renormalize the feature
importances. The threaded per-tree fits are independent except for the
shared global numpy generator they seed and draw from; this function is
the fit under the schedule in which each task's seed-then-draw pairs run
uninterrupted (the per-seed draws the `Oracles` functions encode), which
sequential execution realizes. The other schedules the threading backend
allows are modelled by `twoTreeForestRun` below. -/
def forestFitC (O : Oracles) (fs : ForestState) (X : Mat) (y : List ℚ) : FittedForest :=
  let labs := npUnique y
  let classDistP := labs.map (fun l => pFreq y l)
  let n := X.length
  let p := (X.headD []).length
  let ests := (List.range fs.nEstimators).map (fun i =>
    parallelFitClassifier O (treeStateOf (treeParamsOf fs (fs.randomState * (Int.ofNat i + 1))))
      X y n i fs.bootstrap fs.bayes fs.randomState fs.classWeight (minQ classDistP))
  let fiRaw := sumVecs p (ests.map (fun t => t.featureImportances))
  let s := fiRaw.sum
  let fi := if 0 < s then fiRaw.map (fun v => v / s) else fiRaw
  { estimators := ests, labels := labs, nClasses := labs.length
    classDistP := classDistP, featureImportances := fi }

/-- `_accumulate_prediction` under the lock: when `len(out) == 1` the code
executes `out[0] += prediction`, adding the tree's `(1, k)` prediction
matrix into the length-`k` row `out[0]`, which numpy rejects as a
non-broadcastable in-place operand; otherwise it adds row `i` of the
prediction into row `i` of the accumulator. -/
def accumulatePrediction (prediction : Mat) (out : Mat) : Except CErr Mat :=
  if out.length = 1 then .error .broadcastError
  else .ok (List.zipWith addVec out prediction)

/-- The two shapes `CIForestClassifier.predict_proba` can return: the
`(n, k)` matrix, or `all_proba[0]` (a bare length-`k` row) when `n == 1`. -/
inductive ProbaOut
  | matrix (m : Mat)
  | vector (v : Row)
deriving DecidableEq

/-- `CIForestClassifier.predict_proba`: zero accumulator of shape
`(len(X), n_classes_)`, one `_accumulate_prediction` per estimator (the
lock serializes the additions; the sum is the same in any order), divide
every row by `len(estimators_)`, and return `all_proba[0]` when it has
exactly one row. -/
def forestPredictProba (ff : FittedForest) (X : Mat) : Except CErr ProbaOut := do
  let init : Mat := List.replicate X.length (List.replicate ff.nClasses 0)
  let acc ← ff.estimators.foldlM
    (fun out t => accumulatePrediction (treePredictProba t X) out) init
  let norm := acc.map (fun row => row.map (fun v => v / (ff.estimators.length : ℚ)))
  if norm.length = 1 then return ProbaOut.vector (norm.headD [])
  else return ProbaOut.matrix norm

/-- `CIForestClassifier.predict`: `np.argmax(predict_proba(X), axis=1)`;
on a 1-dimensional `predict_proba` result (the `n == 1` squeeze) numpy
would reject `axis=1`. -/
def forestPredict (ff : FittedForest) (X : Mat) : Except CErr (List Nat) := do
  match ← forestPredictProba ff X with
  | .matrix m => return m.map argmaxIdx
  | .vector _ => Except.error CErr.axisError

/-- The subtrees of a node, the node itself included. -/
def subtreesOf : Node → List Node
  | .leaf v => [.leaf v]
  | .internal c pv th im l r =>
    Node.internal c pv th im l r :: (subtreesOf l ++ subtreesOf r)

/-- The depths of all leaves, measured from a node sitting at depth `d`. -/
def leafDepths : Node → Nat → List Nat
  | .leaf _, d => [d]
  | .internal _ _ _ _ l r, d => leafDepths l (d + 1) ++ leafDepths r (d + 1)

/-- All leaf values of a node. -/
def leafValues : Node → List (List ℚ)
  | .leaf v => [v]
  | .internal _ _ _ _ l r => leafValues l ++ leafValues r

/-- For each internal node, (its sample count, left child count, right
child count), recovered by replaying each stored split on the data the
node was built from. -/
def internalCounts : Node → List (Row × ℚ) → List (Nat × Nat × Nat)
  | .leaf _, _ => []
  | .internal c _ thr _ l r, rows =>
    let parts := splitRows rows c thr
    (rows.length, parts.1.length, parts.2.length) ::
      (internalCounts l parts.1 ++ internalCounts r parts.2)

/-- Whether the root is an internal (split) node. -/
def isInternal : Node → Bool
  | .leaf _ => false
  | .internal .. => true

/-- The matrix of a `predict_proba` outcome (empty when none was returned). -/
def probaMatD (e : Except CErr ProbaOut) : Mat :=
  match e with
  | .ok (.matrix m) => m
  | _ => []

/-- Whether the outcome is the accumulation broadcast failure. -/
def isBroadcastErr (e : Except CErr ProbaOut) : Bool :=
  match e with
  | .error .broadcastError => true
  | _ => false

/-- The error of a failed tree construction, if any. -/
def initErrD (e : Except CErr TreeState) : Option CErr :=
  match e with
  | .error c => some c
  | _ => none

/-! Concrete instances used by counterexamples and witnesses. -/

/-- A concrete oracle assignment: every permutation test reports p-value 0,
the threshold search returns the first value of the column, column choice
takes the first `size` columns, bootstrap choice cycles through the pool. -/
def oracleSplit : Oracles :=
  { permPcor := fun _ _ _ _ => 0
    permDcor := fun _ _ _ _ _ => 0
    pcor := fun _ _ => 0
    dcor := fun _ _ _ => 0
    bestThr := fun x _ _ => x.headD 0
    colChoice := fun _ _ sz => List.range sz
    bootChoice := fun _ _ pool sz _ => (List.range sz).map (fun j => pool.getD (j % pool.length) 0)
    lnFloorF := fun _ => 0 }

/-- A concrete oracle whose column choice depends on the seed and whose
threshold is the second value of the column. -/
def oracleSeedCol : Oracles :=
  { oracleSplit with
    colChoice := fun s _ sz => (List.range sz).map (fun j => (s.toNat + j) % 2)
    bestThr := fun x _ _ => x.getD 1 0 }

/-- Forest configuration with `max_depth = 1` and a single tree. -/
def C1P : ForestParams :=
  { maxDepth := 1
    nEstimators := 1
    maxFeats := .all
    bootstrap := false
    classWeight := none
    randomState := 1 }

/-- Four samples on one feature; the oracle splits off the least row twice. -/
def C1X : Mat := [[0], [1], [2], [3]]

def C1y : List ℚ := [0, 0, 1, 1]

/-- Fallback forest state (never reached by the `getD` below). -/
def dummyFS : ForestState :=
  ForestState.mk 0 0 0 0 0 .pearson .all false false none false 0

/-- A 1-tree forest fitted without bootstrap on two samples (each tree is a
single leaf). -/
def C2fs : ForestState := (forestInit
  { nEstimators := 1
    maxFeats := .all
    bootstrap := false
    classWeight := none
    randomState := 1 }).toOption.getD dummyFS

def C2ff : FittedForest := forestFitC oracleSplit C2fs [[0], [1]] [0, 1]

def C4P0 : ForestParams := { nEstimators := 0, randomState := 1 }

def C4Pneg : ForestParams := { nEstimators := -1, randomState := 1 }

/-- A tree fitted on labels {5, 7}: a single leaf with value [2/3, 1/3]. -/
def C5t : FittedTree :=
  (fitTreeC oracleSplit (treeStateOf { minSamplesSplit := 3, randomState := 1 })
    [[0], [0], [0]] [5, 5, 7] none).1

def C6P : TreeParams := { maxFeats := .int 3, randomState := 1 }

/-- A tree parameter set that is valid throughout (the defaults). -/
def C6Pok : TreeParams := { randomState := 1 }

/-- Data on which the best split at the root leaves both children with the
parent's class distribution: the split is accepted (p-value 0) but its
impurity decrease is 0. -/
def C8t : FittedTree :=
  (fitTreeC oracleSplit (treeStateOf { randomState := 1, maxFeats := .all })
    [[0], [0], [1], [1]] [0, 1, 0, 1] none).1

/-- A 2-tree bootstrap (balanced, Bayesian) forest configuration. -/
def C9fs : ForestState := (forestInit
  { nEstimators := 2
    maxFeats := .all
    randomState := 3 }).toOption.getD dummyFS

def C10P : TreeParams := { maxFeats := .sqrt, randomState := 1 }

def C10ts : TreeState := treeStateOf C10P

def C10X : Mat := [[0, 10], [1, 11], [2, 12], [3, 13]]

def C10y : List ℚ := [0, 0, 1, 1]

/-- First fit of the tree object. -/
def C10r1 : FittedTree × TreeState := fitTreeC oracleSeedCol C10ts C10X C10y none

/-- Second fit of the same object (same data), resuming from the object
state the first fit left behind. -/
def C10r2 : FittedTree × TreeState := fitTreeC oracleSeedCol C10r1.2 C10X C10y none

/-- The shared global numpy generator as the threaded per-tree fits use
it: an abstract state, `np.random.seed` resetting it through `seedState`,
and a draw of `size` of the `p` columns reading and advancing it through
`drawCols`. -/
structure GlobalRng where
  seedState : Int → Int
  drawCols : Int → Nat → Nat → List Nat × Int

/-- The global-generator trace of one threaded run of a two-tree forest
fit in which each tree performs exactly one guarded split, hence exactly
one `np.random.seed(random_state * counter)` followed by one
`np.random.choice`: four atomic operations on the shared generator, each
task's seed preceding its own draw. `interleaved = false` is the
uninterrupted schedule (seed 1, draw 1, seed 2, draw 2); `interleaved =
true` is the schedule (seed 1, seed 2, draw 1, draw 2) the threading
backend equally allows, in which the second task reseeds the shared
generator between the first task's seed and its draw. Returns the column
subsets the two tasks observe. -/
def twoTreeRunDraws (G : GlobalRng) (s1 s2 : Int) (p sz : Nat)
    (interleaved : Bool) : List Nat × List Nat :=
  if interleaved then
    let st0 := G.seedState s2
    let d1 := G.drawCols st0 p sz
    let d2 := G.drawCols d1.2 p sz
    (d1.1, d2.1)
  else
    ((G.drawCols (G.seedState s1) p sz).1, (G.drawCols (G.seedState s2) p sz).1)

/-- Inject the column draws one threaded run produced into the build: the
drawn subset enters `_build_tree` only through the `np.random.choice`
right after the seeding with the split-local seed, so with one split per
tree a run is the deterministic build with the column-choice function
returning each task's observed draw at that task's seed. -/
def oracleOfDraws (base : Oracles) (s1 : Int) (d1 d2 : List Nat) : Oracles :=
  { base with colChoice := fun s _ _ => if s = s1 then d1 else d2 }

/-- One run of the threaded `CIForestBase.fit` of a two-tree,
`bootstrap=False` forest in the one-split-per-tree regime: the
split-local seeds are `random_state * 1` and `random_state * 2`, the
shared generator serves the two seed/draw pairs in the schedule picked by
`interleaved`, and the rest of each fit is thread-local and deterministic
given its draw. With `interleaved = false` this is `forestFitC` on the
per-seed draws of `G`. -/
def twoTreeForestRun (G : GlobalRng) (base : Oracles) (fs : ForestState)
    (X : Mat) (y : List ℚ) (interleaved : Bool) : FittedForest :=
  let s1 := fs.randomState * 1
  let s2 := fs.randomState * 2
  let p := (X.headD []).length
  let sz := resolveMaxFeats base.lnFloorF fs.maxFeats p
  let d := twoTreeRunDraws G s1 s2 p sz interleaved
  forestFitC (oracleOfDraws base s1 d.1 d.2) fs X y

/-- A concrete generator: seeding stores the seed, a draw takes `size`
columns starting at `state mod p` and advances the state. -/
def G3rng : GlobalRng :=
  { seedState := fun s => s
    drawCols := fun st p sz => ((List.range sz).map (fun j => (st.toNat + j) % p), st + 1) }

/-- A two-tree forest, no bootstrap, `max_feats='sqrt'` (one of the two
columns per split), explicit seed 1: the split-local seeds of the two
trees are 1 and 2. -/
def C3fs : ForestState := (forestInit
  { nEstimators := 2
    bootstrap := false
    classWeight := none
    randomState := 1 }).toOption.getD dummyFS

/-- The split column stored at a node, if it is internal. -/
def rootColD : Node → Option Nat
  | .leaf _ => none
  | .internal c _ _ _ _ _ => some c

end Citrees

namespace Citrees

/-- C1: the spec says every tree of `Forest.fit` is constructed with the
forest's full shared hyperparameter set, `max_depth` among them, so every
tree of a forest with finite `max_depth` respects it. In the code
`self.params` (CIForestBase.__init__) has no `max_depth` key, so each tree
gets the `CITreeBase` default `-1` (unbounded): a forest constructed with
`max_depth = 1` stores `max_depth = 1` yet its only tree grows leaves at
depth 2. -/
theorem C1_forest_maxdepth_not_forwarded :
    (forestInit C1P).toOption.map (fun fs => (fs.maxDepth,
      (forestFitC oracleSplit fs C1X C1y).estimators.map (fun t => leafDepths t.root 0)))
      = some (1, [[1, 2, 2]]) := by with_unfolding_all decide

/-- C2: the spec says `Forest.predict_proba(X)` returns the averaged
n-by-k matrix for every n, n = 1 included. On a two-row input the code
does return the per-entry average, but on a one-row input the
accumulation step is `out[0] += prediction` with a (1, k) prediction and a
length-k target, which numpy rejects, so the call fails instead of
returning a 1-by-k matrix. -/
theorem C2_single_row_predict_proba_fails :
    isBroadcastErr (forestPredictProba C2ff [[5]]) = true
  ∧ probaMatD (forestPredictProba C2ff [[0], [1]]) = [[1/2, 1/2], [1/2, 1/2]] := by with_unfolding_all decide

/-- C4: the spec says forest construction fails for every
`n_estimators < 1`, 0 included. The code's check is `n_estimators < 0`
(its own message says "must be > 0"), so `-1` is rejected but `0` is
accepted and silently coerced to one estimator. -/
theorem C4_zero_estimators_accepted :
    (forestInit C4P0).toOption.map (fun fs => fs.nEstimators) = some 1
  ∧ (forestInit C4Pneg).toOption = none := by with_unfolding_all decide

/-- C5 counterexample: on a tree fitted with class set {5, 7} whose only
leaf value is [2/3, 1/3], the class label of maximum probability is 5, yet
`predict` returns `np.argmax` = 0, which is not an element of the class
set: `predict` returns positions in the class list, not class labels. -/
theorem C5_returns_index_not_label :
    treePredict C5t [[0]] = [0]
  ∧ treePredictProba C5t [[0]] = [[2/3, 1/3]]
  ∧ C5t.ctx.labels = [5, 7]
  ∧ C5t.ctx.labels.getD (argmaxIdx [2/3, 1/3]) 0 = 5
  ∧ ¬ ((0 : ℚ) ∈ C5t.ctx.labels) := by with_unfolding_all decide

/-- C6 counterexample: the claim says tree construction accepts an
explicit integer `max_feats`; the constructor's membership check
`max_feats not in ['sqrt', 'log', 'all', -1]` rejects the explicit integer
3 with a configuration error. -/
theorem C6_explicit_int_rejected :
    initErrD (treeInit C6P) = some CErr.maxFeatsError := by with_unfolding_all decide

/-- Helper: the argmax index is a position of the row. -/
theorem argmaxIdx_lt_length : ∀ (v : List ℚ), v ≠ [] → argmaxIdx v < v.length
  | [], h => absurd rfl h
  | [_], _ => by simp [argmaxIdx]
  | a :: b :: r, _ => by
    have ih := argmaxIdx_lt_length (b :: r) (by simp)
    simp only [argmaxIdx]
    split
    · simp
    · simpa using Nat.succ_lt_succ ih

/-- Helper: no entry of the row beats the one at the argmax index. -/
theorem argmaxIdx_is_max : ∀ (v : List ℚ), ∀ j < v.length,
    v.getD j 0 ≤ v.getD (argmaxIdx v) 0
  | [], j, hj => by simp at hj
  | [a], j, hj => by
    simp only [List.length_singleton, Nat.lt_one_iff] at hj
    subst hj
    simp [argmaxIdx]
  | a :: b :: r, j, hj => by
    have ih := argmaxIdx_is_max (b :: r)
    simp only [argmaxIdx]
    split
    · rename_i h
      cases j with
      | zero => simp
      | succ k =>
        have hk : k < (b :: r).length := by simpa using hj
        calc (a :: b :: r).getD (k + 1) 0 = (b :: r).getD k 0 := by simp
          _ ≤ (b :: r).getD (argmaxIdx (b :: r)) 0 := ih k hk
          _ ≤ a := h
          _ = (a :: b :: r).getD 0 0 := by simp
    · rename_i h
      push_neg at h
      cases j with
      | zero => simpa using le_of_lt h
      | succ k =>
        have hk : k < (b :: r).length := by simpa using hj
        simpa using ih k hk

/-- Helper: every entry before the argmax index is strictly smaller, so the
argmax index is the lowest position attaining the maximum. -/
theorem argmaxIdx_first : ∀ (v : List ℚ), ∀ j < argmaxIdx v,
    v.getD j 0 < v.getD (argmaxIdx v) 0
  | [], j, hj => by simp [argmaxIdx] at hj
  | [a], j, hj => by simp [argmaxIdx] at hj
  | a :: b :: r, j, hj => by
    have ih := argmaxIdx_first (b :: r)
    simp only [argmaxIdx] at hj ⊢
    split
    · rename_i h
      rw [if_pos h] at hj
      exact absurd hj (Nat.not_lt_zero j)
    · rename_i h
      rw [if_neg h] at hj
      push_neg at h
      cases j with
      | zero => simpa using h
      | succ k =>
        have hk : k < argmaxIdx (b :: r) := Nat.lt_of_succ_lt_succ hj
        simpa using ih k hk

/-- C5 (amended): `Tree.predict` and `Forest.predict` return, per row, not
the class label but `np.argmax` of the probability row: the lowest
position attaining the maximum probability. The returned value equals the
class label only when the class list is 0..k-1. -/
theorem C5_predict_is_lowest_argmax_index (t : FittedTree) (X : Mat)
    (ff : FittedForest) (X2 : Mat) (v : List ℚ) (hv : v ≠ []) :
    treePredict t X = (treePredictProba t X).map argmaxIdx
  ∧ forestPredict ff X2 = (forestPredictProba ff X2).bind (fun o =>
      match o with
      | .matrix m => Except.ok (m.map argmaxIdx)
      | .vector _ => Except.error CErr.axisError)
  ∧ argmaxIdx v < v.length
  ∧ (∀ j, j < v.length → v.getD j 0 ≤ v.getD (argmaxIdx v) 0)
  ∧ (∀ j, j < argmaxIdx v → v.getD j 0 < v.getD (argmaxIdx v) 0) := by
  refine ⟨rfl, ?_, argmaxIdx_lt_length v hv, fun j hj => argmaxIdx_is_max v j hj,
    fun j hj => argmaxIdx_first v j hj⟩
  simp only [forestPredict, bind, Except.bind]
  cases forestPredictProba ff X2 with
  | error e => rfl
  | ok o => cases o <;> rfl

/-- C5 witness: the theorem at the single-leaf tree over classes {5, 7},
the two-sample forest, and the row [1/2, 1/2]. -/
theorem C5_predict_argmax_witness :
    treePredict C5t [[0]] = (treePredictProba C5t [[0]]).map argmaxIdx
  ∧ forestPredict C2ff [[0], [1]] = (forestPredictProba C2ff [[0], [1]]).bind (fun o =>
      match o with
      | .matrix m => Except.ok (m.map argmaxIdx)
      | .vector _ => Except.error CErr.axisError)
  ∧ argmaxIdx [(1:ℚ)/2, 1/2] < ([(1:ℚ)/2, 1/2]).length
  ∧ (∀ j, j < ([(1:ℚ)/2, 1/2]).length →
      ([(1:ℚ)/2, 1/2]).getD j 0 ≤ ([(1:ℚ)/2, 1/2]).getD (argmaxIdx [(1:ℚ)/2, 1/2]) 0)
  ∧ (∀ j, j < argmaxIdx [(1:ℚ)/2, 1/2] →
      ([(1:ℚ)/2, 1/2]).getD j 0 < ([(1:ℚ)/2, 1/2]).getD (argmaxIdx [(1:ℚ)/2, 1/2]) 0) :=
  C5_predict_is_lowest_argmax_index C5t [[0]] C2ff [[0], [1]] [1/2, 1/2] (by simp)

/-- C6 (amended): tree construction accepts `max_feats` given as `sqrt`,
`log`, `all`, or the unspecified default `-1`, and rejects every other
explicit integer at construction; `fit` resolves the accepted values once
at the start to `floor(sqrt(p))` for `sqrt`, `floor(ln(p+1))` for `log`
(the floored float logarithm `int(np.log(p+1))`, written here as a
function assumed to agree with the real logarithm floor), and `p` for
`all` and `-1`. -/
theorem C6_maxfeats_resolution (p : TreeParams) (h1 : 0 < p.alpha) (h2 : p.alpha ≤ 1)
    (h3 : 0 ≤ p.nPermutations) (lnF : Nat → Nat) (np : Nat)
    (hln : (lnF (np + 1) : ℝ) ≤ Real.log ((np : ℝ) + 1)
         ∧ Real.log ((np : ℝ) + 1) < (lnF (np + 1) : ℝ) + 1) :
    ((treeInit p).toOption.isSome = true
      ↔ p.maxFeats ∈ [MaxFeatsArg.sqrt, .log, .all, .int (-1)])
  ∧ resolveMaxFeats lnF .sqrt np = Nat.sqrt np
  ∧ resolveMaxFeats lnF .all np = np
  ∧ resolveMaxFeats lnF (.int (-1)) np = np
  ∧ resolveMaxFeats lnF .log np = ⌊Real.log ((np : ℝ) + 1)⌋₊ := by
  refine ⟨?_, rfl, rfl, by simp [resolveMaxFeats], ?_⟩
  · rw [treeInit, if_neg (by push_neg; exact ⟨h1, h2⟩), if_neg (by omega)]
    cases hmf : p.maxFeats with
    | int i =>
      by_cases hi : i = -1 <;>
        simp [validMaxFeats, hi, hmf, Except.toOption]
    | sqrt => simp [validMaxFeats, hmf, Except.toOption]
    | log => simp [validMaxFeats, hmf, Except.toOption]
    | all => simp [validMaxFeats, hmf, Except.toOption]
  · have h0 : (0 : ℝ) ≤ Real.log ((np : ℝ) + 1) := by
      apply Real.log_nonneg
      have : (0 : ℝ) ≤ (np : ℝ) := Nat.cast_nonneg np
      linarith
    have := (Nat.floor_eq_iff h0).mpr ⟨hln.1, hln.2⟩
    simpa [resolveMaxFeats] using this.symm

/-- C6 witness: the theorem at the default (valid) parameter set, the
constant-zero log-floor function and p = 1 (where ln 2 lies in [0, 1)). -/
theorem C6_maxfeats_resolution_witness :
    ((treeInit C6Pok).toOption.isSome = true
      ↔ C6Pok.maxFeats ∈ [MaxFeatsArg.sqrt, .log, .all, .int (-1)])
  ∧ resolveMaxFeats (fun _ => 0) .sqrt 1 = Nat.sqrt 1
  ∧ resolveMaxFeats (fun _ => 0) .all 1 = 1
  ∧ resolveMaxFeats (fun _ => 0) (.int (-1)) 1 = 1
  ∧ resolveMaxFeats (fun _ => 0) .log 1 = ⌊Real.log ((1 : ℝ) + 1)⌋₊ := by
  have hlog : Real.log (((1 : Nat) : ℝ) + 1) < ((0 : Nat) : ℝ) + 1 := by
    have h2 : ((1 : Nat) : ℝ) + 1 = (2 : ℝ) := by norm_num
    rw [h2]
    have := Real.log_two_lt_d9
    norm_num at this ⊢
    linarith
  have hnn : ((0 : Nat) : ℝ) ≤ Real.log (((1 : Nat) : ℝ) + 1) := by
    have := Real.log_nonneg (show (1 : ℝ) ≤ ((1 : Nat) : ℝ) + 1 by norm_num)
    simpa using this
  simpa using C6_maxfeats_resolution C6Pok (by norm_num [C6Pok]) (by norm_num [C6Pok])
    (by norm_num [C6Pok]) (fun _ => 0) 1 ⟨hnn, hlog⟩

/-- Helper: a nonempty accumulation over a single-row accumulator fails at
its first step. -/
theorem accum_foldlM_err (X : Mat) (t : FittedTree) (ts : List FittedTree)
    (out : Mat) (h : out.length = 1) :
    (t :: ts).foldlM (fun o tr => accumulatePrediction (treePredictProba tr X) o) out
      = Except.error CErr.broadcastError := by
  simp [List.foldlM, accumulatePrediction, h, Bind.bind, Except.bind]

/-- Helper: over an accumulator with any other row count the accumulation
never fails and is a fold of elementwise additions. -/
theorem accum_foldlM_ok (X : Mat) (hX : X.length ≠ 1) :
    ∀ (es : List FittedTree) (out : Mat), out.length = X.length →
    es.foldlM (fun o t => accumulatePrediction (treePredictProba t X) o) out
      = Except.ok (es.foldl (fun o t => List.zipWith addVec o (treePredictProba t X)) out)
  | [], out, _ => rfl
  | t :: ts, out, h => by
    have hne : out.length ≠ 1 := by rw [h]; exact hX
    have hstep : accumulatePrediction (treePredictProba t X) out
        = Except.ok (List.zipWith addVec out (treePredictProba t X)) := by
      simp [accumulatePrediction, hne]
    have hlen : (List.zipWith addVec out (treePredictProba t X)).length = X.length := by
      simp [treePredictProba, h]
    simp only [List.foldlM, hstep]
    simpa using accum_foldlM_ok X hX ts _ hlen

/-- Helper: elementwise row addition commutes on the right. -/
theorem addVec_rightcomm : ∀ (o a b : Row),
    addVec (addVec o a) b = addVec (addVec o b) a
  | [], _, _ => rfl
  | _ :: _, [], [] => rfl
  | _ :: _, [], _ :: _ => rfl
  | _ :: _, _ :: _, [] => rfl
  | x :: o, u :: a, v :: b => by
    simp only [addVec, List.zipWith]
    exact congrArg₂ (· :: ·) (add_right_comm x u v) (addVec_rightcomm o a b)

/-- Helper: elementwise matrix addition commutes on the right. -/
theorem zip_addVec_rightcomm : ∀ (o a b : Mat),
    List.zipWith addVec (List.zipWith addVec o a) b
      = List.zipWith addVec (List.zipWith addVec o b) a
  | [], _, _ => rfl
  | _ :: _, [], [] => rfl
  | _ :: _, [], _ :: _ => rfl
  | _ :: _, _ :: _, [] => rfl
  | x :: o, u :: a, v :: b => by
    simp only [List.zipWith]
    exact congrArg₂ (· :: ·) (addVec_rightcomm x u v) (zip_addVec_rightcomm o a b)

/-- Helper: the accumulated sum does not depend on the order the tree
predictions arrive in. -/
theorem foldl_accum_perm (X : Mat) {es es' : List FittedTree} (h : es.Perm es') :
    ∀ out, es.foldl (fun o t => List.zipWith addVec o (treePredictProba t X)) out
      = es'.foldl (fun o t => List.zipWith addVec o (treePredictProba t X)) out := by
  induction h with
  | nil => intro out; rfl
  | cons x _ ih => intro out; exact ih _
  | swap x y l =>
    intro out
    simp only [List.foldl]
    rw [zip_addVec_rightcomm]
  | trans _ _ ih1 ih2 => intro out; exact (ih1 out).trans (ih2 out)

/-- Helper: `Forest.predict_proba` is invariant under any reordering of the
estimator list, which is the only freedom the threaded accumulation under
the lock has. -/
theorem forestPredictProba_perm (ff : FittedForest) (es' : List FittedTree) (Xt : Mat)
    (h : ff.estimators.Perm es') :
    forestPredictProba { ff with estimators := es' } Xt = forestPredictProba ff Xt := by
  have hlen : es'.length = ff.estimators.length := h.length_eq.symm
  by_cases hx : Xt.length = 1
  · cases hes : ff.estimators with
    | nil =>
      have hes' : es' = [] := (hes ▸ h).symm.eq_nil
      simp [forestPredictProba, hes, hes']
    | cons t ts =>
      have hne : es' ≠ [] := by
        intro hcon
        rw [hcon] at h
        simp [h.eq_nil] at hes
      cases hes2 : es' with
      | nil => exact absurd hes2 hne
      | cons t2 ts2 =>
        have e1 := accum_foldlM_err Xt t2 ts2
          (List.replicate Xt.length (List.replicate ff.nClasses 0)) (by simp [hx])
        have e2 := accum_foldlM_err Xt t ts
          (List.replicate Xt.length (List.replicate ff.nClasses 0)) (by simp [hx])
        simp [forestPredictProba, hes, hes2, e1, e2, Bind.bind, Except.bind]
  · have h1 := accum_foldlM_ok Xt hx es'
      (List.replicate Xt.length (List.replicate ff.nClasses 0)) (by simp)
    have h2 := accum_foldlM_ok Xt hx ff.estimators
      (List.replicate Xt.length (List.replicate ff.nClasses 0)) (by simp)
    simp only [forestPredictProba, h1, h2, Bind.bind, Except.bind, hlen]
    rw [foldl_accum_perm Xt h]

/-- C3 (amended): determinism below the forest fit's thread schedule.
Construction from an explicit seed is a function of the parameters (two
constructions agree); a single tree's fit runs on one thread, its
split-local seeds are `random_state * counter`, so `fit` and the
predictors are pure functions of the constructed state and the inputs
(two tree runs agree bit for bit); a forest fit is likewise determined by
seed and inputs once the interleaving of the shared-generator operations
is fixed (here the uninterrupted schedule, whose per-seed draws the
`Oracles` record encodes); and the prediction accumulator is invariant
under the order the per-tree additions enter it, so fitted-forest
predictions are deterministic. Forest fitting itself is not two-run
deterministic: the counterexample below exhibits the schedule race on the
shared global numpy generator. -/
theorem C3_two_run_determinism (O : Oracles) (p : TreeParams) (fp : ForestParams)
    (X Xt : Mat) (y : List ℚ) (labels : Option (List ℚ))
    (ts1 ts2 : TreeState) (h1 : treeInit p = .ok ts1) (h2 : treeInit p = .ok ts2)
    (fs1 fs2 : ForestState) (g1 : forestInit fp = .ok fs1) (g2 : forestInit fp = .ok fs2)
    (es' : List FittedTree) (hperm : (forestFitC O fs1 X y).estimators.Perm es') :
    (fitTreeC O ts1 X y labels).1 = (fitTreeC O ts2 X y labels).1
  ∧ treePredict (fitTreeC O ts1 X y labels).1 Xt
      = treePredict (fitTreeC O ts2 X y labels).1 Xt
  ∧ treePredictProba (fitTreeC O ts1 X y labels).1 Xt
      = treePredictProba (fitTreeC O ts2 X y labels).1 Xt
  ∧ forestFitC O fs1 X y = forestFitC O fs2 X y
  ∧ forestPredictProba { forestFitC O fs1 X y with estimators := es' } Xt
      = forestPredictProba (forestFitC O fs1 X y) Xt
  ∧ forestPredict (forestFitC O fs1 X y) Xt = forestPredict (forestFitC O fs2 X y) Xt := by
  have hts : ts1 = ts2 := by
    have := h1.symm.trans h2
    exact Except.ok.inj this
  have hfs : fs1 = fs2 := by
    have := g1.symm.trans g2
    exact Except.ok.inj this
  subst hts
  subst hfs
  exact ⟨rfl, rfl, rfl, rfl, forestPredictProba_perm _ es' Xt hperm, rfl⟩

/-- C3 witness: the theorem at the concrete seeded tree and forest
configurations, with the estimator list taken in its own order. -/
theorem C3_two_run_determinism_witness :
    (fitTreeC oracleSeedCol C10ts C10X C10y none).1
      = (fitTreeC oracleSeedCol C10ts C10X C10y none).1
  ∧ treePredict (fitTreeC oracleSeedCol C10ts C10X C10y none).1 C10X
      = treePredict (fitTreeC oracleSeedCol C10ts C10X C10y none).1 C10X
  ∧ treePredictProba (fitTreeC oracleSeedCol C10ts C10X C10y none).1 C10X
      = treePredictProba (fitTreeC oracleSeedCol C10ts C10X C10y none).1 C10X
  ∧ forestFitC oracleSeedCol C2fs C10X C10y = forestFitC oracleSeedCol C2fs C10X C10y
  ∧ forestPredictProba { forestFitC oracleSeedCol C2fs C10X C10y with
      estimators := (forestFitC oracleSeedCol C2fs C10X C10y).estimators } C10X
      = forestPredictProba (forestFitC oracleSeedCol C2fs C10X C10y) C10X
  ∧ forestPredict (forestFitC oracleSeedCol C2fs C10X C10y) C10X
      = forestPredict (forestFitC oracleSeedCol C2fs C10X C10y) C10X :=
  C3_two_run_determinism oracleSeedCol C10P
    { nEstimators := 1, maxFeats := .all, bootstrap := false, classWeight := none,
      randomState := 1 }
    C10X C10X C10y none C10ts C10ts (by with_unfolding_all rfl) (by with_unfolding_all rfl)
    C2fs C2fs (by with_unfolding_all rfl) (by with_unfolding_all rfl)
    (forestFitC oracleSeedCol C2fs C10X C10y).estimators (List.Perm.refl _)

/-- C3 counterexample: two runs of the same seeded two-tree forest fit on
the same data, differing only in how the threading backend interleaves
the four atomic operations the tasks perform on the shared global numpy
generator. In the uninterrupted schedule the trees split on columns 1 and
0; in the schedule where the second task's `np.random.seed` lands between
the first task's seed and draw they split on columns 0 and 1: the two
fitted forests are not bit-identical, so forest fitting with an identical
explicit seed and identical inputs is not two-run deterministic under the
default threaded dispatch. -/
theorem C3_forest_seed_race :
    ((twoTreeForestRun G3rng oracleSeedCol C3fs C10X C10y false).estimators.map
        (fun t => rootColD t.root) = [some 1, some 0])
  ∧ ((twoTreeForestRun G3rng oracleSeedCol C3fs C10X C10y true).estimators.map
        (fun t => rootColD t.root) = [some 0, some 1])
  ∧ twoTreeForestRun G3rng oracleSeedCol C3fs C10X C10y false
      ≠ twoTreeForestRun G3rng oracleSeedCol C3fs C10X C10y true := by
  with_unfolding_all decide

/-- Helper: a node below the depth bound stays below it one level down. -/
theorem depthLT_succ (d : Nat) (m : Option Nat) (h : depthLT d m = true) :
    depthLE (d + 1) m = true := by
  cases m
  · rfl
  · simp [depthLT, depthLE] at h ⊢
    omega

/-- Helper: the partitions the splitter returns are the stored threshold's
partition of its rows. -/
theorem splitterC_parts (O : Oracles) (cfg : FitCtx) (rows : List (Row × ℚ))
    (n : Nat) (col : Nat) (fi : List ℚ) :
    (splitterC O cfg rows n col fi).2.2.1
        = (splitRows rows col (splitterC O cfg rows n col fi).2.1).1
  ∧ (splitterC O cfg rows n col fi).2.2.2.1
        = (splitRows rows col (splitterC O cfg rows n col fi).2.1).2 :=
  ⟨rfl, rfl⟩

/-- Helper: the structural invariants of `_build_tree`, by induction on the
fuel: every internal node stores a p-value below `alpha`; every leaf depth
respects the depth bound the call entered with; every internal node was
split from more than `min_samples_split` rows into two nonempty parts. -/
theorem build_inv (O : Oracles) (cfg : FitCtx) :
    ∀ (fuel : Nat) (rows : List (Row × ℚ)) (depth : Nat) (st : BState),
    depthLE depth cfg.maxDepth = true →
    (∀ s ∈ subtreesOf (buildTreeF O cfg fuel rows depth st).1,
        ∀ c pv th im l r, s = Node.internal c pv th im l r → pv < cfg.alpha)
  ∧ (∀ d ∈ leafDepths (buildTreeF O cfg fuel rows depth st).1 depth,
        depthLE d cfg.maxDepth = true)
  ∧ (∀ trip ∈ internalCounts (buildTreeF O cfg fuel rows depth st).1 rows,
        cfg.minSamplesSplit < trip.1 ∧ 0 < trip.2.1 ∧ 0 < trip.2.2) := by
  intro fuel
  induction fuel with
  | zero =>
    intro rows depth st h
    exact ⟨by simp [buildTreeF, leafNode, subtreesOf],
      by simp [buildTreeF, leafNode, leafDepths, h],
      by simp [buildTreeF, leafNode, internalCounts]⟩
  | succ fuel ih =>
    intro rows depth st h
    simp only [buildTreeF, buildStep]
    split
    · rename_i hguard
      split
      · exact ⟨by simp [leafNode, subtreesOf],
          by simp [leafNode, leafDepths, h],
          by simp [leafNode, internalCounts]⟩
      · rename_i cb heq
        split
        · rename_i halpha
          split
          · rename_i hne
            have hdep : depthLE (depth + 1) cfg.maxDepth = true :=
              depthLT_succ depth cfg.maxDepth hguard.2
            refine ⟨?_, ?_, ?_⟩
            · intro s hs c pv th im l r hseq
              simp only [subtreesOf, List.mem_cons, List.mem_append] at hs
              rcases hs with hs | hs | hs
              · rw [hs] at hseq
                injection hseq with _ h2 _ _ _ _
                rw [← h2]
                exact halpha
              · exact (ih _ (depth + 1) _ hdep).1 s hs c pv th im l r hseq
              · exact (ih _ (depth + 1) _ hdep).1 s hs c pv th im l r hseq
            · intro d hd
              simp only [leafDepths, List.mem_append] at hd
              rcases hd with hd | hd
              · exact (ih _ (depth + 1) _ hdep).2.1 d hd
              · exact (ih _ (depth + 1) _ hdep).2.1 d hd
            · intro trip htrip
              simp only [internalCounts, List.mem_cons, List.mem_append] at htrip
              rcases htrip with htrip | htrip | htrip
              · rw [htrip]
                refine ⟨hguard.1, ?_, ?_⟩
                · have := hne.1
                  rw [(splitterC_parts O cfg rows rows.length cb.1 st.fi).1] at this
                  exact List.length_pos.mpr this
                · have := hne.2
                  rw [(splitterC_parts O cfg rows rows.length cb.1 st.fi).2] at this
                  exact List.length_pos.mpr this
              · exact (ih _ (depth + 1) _ hdep).2.2 trip htrip
              · exact (ih _ (depth + 1) _ hdep).2.2 trip htrip
          · exact ⟨by simp [leafNode, subtreesOf],
              by simp [leafNode, leafDepths, h],
              by simp [leafNode, internalCounts]⟩
        · exact ⟨by simp [leafNode, subtreesOf],
            by simp [leafNode, leafDepths, h],
            by simp [leafNode, internalCounts]⟩
    · exact ⟨by simp [leafNode, subtreesOf],
        by simp [leafNode, leafDepths, h],
        by simp [leafNode, internalCounts]⟩

/-- C7: in every tree `Tree.fit` produces, an internal node exists only
where the selected column's permutation-test p-value was below `alpha` and
both child partitions (on the stored column and threshold) were nonempty;
every leaf sits at depth at most `max_depth`; and every internal node was
split from strictly more than `min_samples_split` samples. -/
theorem C7_tree_invariants (O : Oracles) (ts : TreeState) (X : Mat) (y : List ℚ)
    (labels : Option (List ℚ)) :
    (∀ s ∈ subtreesOf (fitTreeC O ts X y labels).1.root,
        ∀ c pv th im l r, s = Node.internal c pv th im l r → pv < ts.alpha)
  ∧ (∀ d ∈ leafDepths (fitTreeC O ts X y labels).1.root 0,
        depthLE d ts.maxDepth = true)
  ∧ (∀ trip ∈ internalCounts (fitTreeC O ts X y labels).1.root (X.zip y),
        ts.minSamplesSplit < trip.1 ∧ 0 < trip.2.1 ∧ 0 < trip.2.2) := by
  have h0 : depthLE 0 ts.maxDepth = true := by
    cases ts.maxDepth <;> simp [depthLE]
  simp only [fitTreeC, buildTree]
  exact build_inv O _ (X.zip y).length (X.zip y) 0 _ h0

/-- Helper: `pFreq` through `cntQ`. -/
theorem pFreq_eq (l : List ℚ) (c : ℚ) : pFreq l c = cntQ l c / (l.length : ℚ) := rfl

/-- Helper: sums of pointwise sums split. -/
theorem sum_map_add (L : List ℚ) (f g : ℚ → ℚ) :
    (L.map (fun c => f c + g c)).sum = (L.map f).sum + (L.map g).sum := by
  induction L with
  | nil => simp
  | cons a l ih => simp only [List.map_cons, List.sum_cons, ih]; ring

/-- Helper: a constant right factor moves out of a sum. -/
theorem sum_map_mul (L : List ℚ) (f : ℚ → ℚ) (k : ℚ) :
    (L.map (fun c => f c * k)).sum = (L.map f).sum * k := by
  induction L with
  | nil => simp
  | cons a l ih => simp only [List.map_cons, List.sum_cons, ih]; ring

/-- Helper: a constant divisor moves out of a sum. -/
theorem sum_map_div (l : List ℚ) (s : ℚ) :
    (l.map (fun v => v / s)).sum = l.sum / s := by
  induction l with
  | nil => simp
  | cons a t ih => simp [ih, add_div]

/-- Helper: the Engel-form inequality behind the concavity of the Gini
index, with the division-by-zero conventions the empty partitions need. -/
theorem gini_term_nonneg (a b nl nr : ℚ) (hnl : 0 ≤ nl) (hnr : 0 ≤ nr)
    (hn : 0 < nl + nr) (ha : nl = 0 → a = 0) (hb : nr = 0 → b = 0) :
    ((a + b) / (nl + nr)) ^ 2
      ≤ (a / nl) ^ 2 * (nl / (nl + nr)) + (b / nr) ^ 2 * (nr / (nl + nr)) := by
  by_cases hl : nl = 0
  · have hb0 : nr ≠ 0 := by intro h0; rw [hl, h0] at hn; simp at hn
    rw [hl, ha hl]
    field_simp
  · by_cases hr : nr = 0
    · rw [hr, hb hr]
      field_simp
    · have hlp : 0 < nl := lt_of_le_of_ne hnl (Ne.symm hl)
      have hrp : 0 < nr := lt_of_le_of_ne hnr (Ne.symm hr)
      have hpos : (0 : ℚ) < nl * nr * (nl + nr) ^ 2 := by positivity
      have key : (a / nl) ^ 2 * (nl / (nl + nr)) + (b / nr) ^ 2 * (nr / (nl + nr))
          - ((a + b) / (nl + nr)) ^ 2
          = (a * nr - b * nl) ^ 2 / (nl * nr * (nl + nr) ^ 2) := by
        field_simp
        ring
      have hnn2 : 0 ≤ (a * nr - b * nl) ^ 2 / (nl * nr * (nl + nr) ^ 2) :=
        div_nonneg (sq_nonneg _) hpos.le
      linarith [key, hnn2]

/-- Helper: weighted child Gini impurity never exceeds the parent Gini
impurity, for any class list and any partition of the labels. -/
theorem gini_decrease_nonneg (L y yl yr : List ℚ)
    (hcnt : ∀ c, cntQ y c = cntQ yl c + cntQ yr c)
    (hlen : yl.length + yr.length = y.length) (hy : y ≠ []) :
    gini_index yl L * ((yl.length : ℚ) / (y.length : ℚ))
      + gini_index yr L * ((yr.length : ℚ) / (y.length : ℚ)) ≤ gini_index y L := by
  have hn : (0 : ℚ) < (y.length : ℚ) := by
    have := List.length_pos.mpr hy
    exact_mod_cast this
  have hnn : ((yl.length : ℚ) + (yr.length : ℚ)) = (y.length : ℚ) := by
    exact_mod_cast hlen
  have hpt : ∀ c ∈ L, (pFreq y c) ^ 2
      ≤ (pFreq yl c) ^ 2 * ((yl.length : ℚ) / (y.length : ℚ))
        + (pFreq yr c) ^ 2 * ((yr.length : ℚ) / (y.length : ℚ)) := by
    intro c _
    have hcl : (yl.length : ℚ) = 0 → cntQ yl c = 0 := by
      intro h0
      have hz : yl = [] := by
        have : yl.length = 0 := by exact_mod_cast h0
        simpa [List.length_eq_zero] using this
      simp [hz, cntQ]
    have hcr : (yr.length : ℚ) = 0 → cntQ yr c = 0 := by
      intro h0
      have hz : yr = [] := by
        have : yr.length = 0 := by exact_mod_cast h0
        simpa [List.length_eq_zero] using this
      simp [hz, cntQ]
    have hterm := gini_term_nonneg (cntQ yl c) (cntQ yr c) (yl.length : ℚ) (yr.length : ℚ)
      (Nat.cast_nonneg _) (Nat.cast_nonneg _) (by rw [hnn]; exact hn) hcl hcr
    rw [pFreq_eq, pFreq_eq, pFreq_eq, hcnt c, ← hnn]
    exact hterm
  have hsum := List.sum_le_sum hpt
  rw [sum_map_add, sum_map_mul, sum_map_mul] at hsum
  have hone : (yl.length : ℚ) / (y.length : ℚ) + (yr.length : ℚ) / (y.length : ℚ) = 1 := by
    rw [div_add_div_same, hnn, div_self hn.ne']
  rw [gini_index, gini_index, gini_index]
  nlinarith [hsum, hone]

/-- Helper: a two-way filter partitions the per-class counts. -/
theorem filter_count_partition (rows : List (Row × ℚ)) (p : Row × ℚ → Bool) (q : ℚ → Bool) :
    (((rows.filter p).map (fun rc => rc.2)).filter q).length
      + (((rows.filter (fun a => ! p a)).map (fun rc => rc.2)).filter q).length
      = ((rows.map (fun rc => rc.2)).filter q).length := by
  induction rows with
  | nil => rfl
  | cons a t ih =>
    by_cases hp : p a <;> by_cases hq : q a.2 <;>
      simp [hp, hq, List.filter_cons] <;> omega

/-- Helper: a two-way filter partitions the row count. -/
theorem filter_length_partition (rows : List (Row × ℚ)) (p : Row × ℚ → Bool) :
    (rows.filter p).length + (rows.filter (fun a => ! p a)).length = rows.length := by
  induction rows with
  | nil => rfl
  | cons a t ih => by_cases hp : p a <;> simp [hp, List.filter_cons] <;> omega

/-- Helper: the splitter's impurity decrease is never negative: the
weighted child impurities never exceed the parent impurity. -/
theorem split_imp_le (L : List ℚ) (rows : List (Row × ℚ)) (col : Nat) (thr : ℚ)
    (hrows : rows ≠ []) :
    gini_index (labelsOf (splitRows rows col thr).1) L
        * (((splitRows rows col thr).1.length : ℚ) / (rows.length : ℚ))
      + gini_index (labelsOf (splitRows rows col thr).2) L
        * (((splitRows rows col thr).2.length : ℚ) / (rows.length : ℚ))
      ≤ gini_index (labelsOf rows) L := by
  have hcnt : ∀ c, cntQ (labelsOf rows) c
      = cntQ (labelsOf (splitRows rows col thr).1) c
        + cntQ (labelsOf (splitRows rows col thr).2) c := by
    intro c
    have := filter_count_partition rows (fun rc => decide (rc.1.getD col 0 ≤ thr))
      (fun v => decide (v = c))
    unfold cntQ labelsOf splitRows
    exact_mod_cast this.symm
  have hlen : (labelsOf (splitRows rows col thr).1).length
      + (labelsOf (splitRows rows col thr).2).length = (labelsOf rows).length := by
    have := filter_length_partition rows (fun rc => decide (rc.1.getD col 0 ≤ thr))
    simpa [labelsOf, splitRows] using this
  have hy : labelsOf rows ≠ [] := by
    cases rows with
    | nil => exact absurd rfl hrows
    | cons a t => simp [labelsOf]
  have := gini_decrease_nonneg L (labelsOf rows)
    (labelsOf (splitRows rows col thr).1) (labelsOf (splitRows rows col thr).2)
    hcnt hlen hy
  simpa [labelsOf, splitRows] using this

/-- Helper: the impurity decrease the classifier splitter records is
nonnegative (`n` is the row count, as `_build_tree` passes it). -/
theorem splitterC_imp_nonneg (O : Oracles) (cfg : FitCtx) (rows : List (Row × ℚ))
    (col : Nat) (fi : List ℚ) (hrows : rows ≠ []) :
    0 ≤ (splitterC O cfg rows rows.length col fi).1 :=
  sub_nonneg.mpr (split_imp_le cfg.labels rows col
    (O.bestThr (colValues rows col) (labelsOf rows) cfg.minSamplesSplit) hrows)

/-- Helper: when the left partition is empty the right one is all the rows. -/
theorem splitRows_left_empty (rows : List (Row × ℚ)) (col : Nat) (thr : ℚ)
    (h : (splitRows rows col thr).1 = []) : (splitRows rows col thr).2 = rows := by
  unfold splitRows at h ⊢
  rw [List.filter_eq_self]
  intro a ha
  have := List.filter_eq_nil_iff.mp h a ha
  simpa using this

/-- Helper: when the right partition is empty the left one is all the rows. -/
theorem splitRows_right_empty (rows : List (Row × ℚ)) (col : Nat) (thr : ℚ)
    (h : (splitRows rows col thr).2 = []) : (splitRows rows col thr).1 = rows := by
  unfold splitRows at h ⊢
  rw [List.filter_eq_self]
  intro a ha
  have := List.filter_eq_nil_iff.mp h a ha
  simpa using this

/-- Helper: a degenerate split (one empty child) has impurity decrease
exactly 0: the nonempty child carries the parent distribution whole. -/
theorem splitterC_imp_zero (O : Oracles) (cfg : FitCtx) (rows : List (Row × ℚ))
    (col : Nat) (fi : List ℚ) (hrows : rows ≠ [])
    (h : (splitterC O cfg rows rows.length col fi).2.2.1 = []
       ∨ (splitterC O cfg rows rows.length col fi).2.2.2.1 = []) :
    (splitterC O cfg rows rows.length col fi).1 = 0 := by
  have hn : (0 : ℚ) < (rows.length : ℚ) := by
    have := List.length_pos.mpr hrows
    exact_mod_cast this
  rcases h with h | h
  · have h2 := splitRows_left_empty rows col _ h
    show gini_index (labelsOf rows) cfg.labels - _ = 0
    rw [show (splitterC O cfg rows rows.length col fi).2.2.1
        = (splitRows rows col (O.bestThr (colValues rows col) (labelsOf rows)
            cfg.minSamplesSplit)).1 from rfl] at h
    simp [h, h2, gini_index, div_self hn.ne']
  · have h2 := splitRows_right_empty rows col _ h
    show gini_index (labelsOf rows) cfg.labels - _ = 0
    rw [show (splitterC O cfg rows rows.length col fi).2.2.2.1
        = (splitRows rows col (O.bestThr (colValues rows col) (labelsOf rows)
            cfg.minSamplesSplit)).2 from rfl] at h
    simp [h, h2, gini_index, div_self hn.ne']

/-- Helper: a list index holds a nonnegative value when all entries are
nonnegative (the default is 0). -/
theorem getD_nonneg (fi : List ℚ) (c : Nat) (hfi : ∀ x ∈ fi, 0 ≤ x) :
    0 ≤ fi.getD c 0 := by
  induction fi generalizing c with
  | nil => simp
  | cons a l ih =>
    cases c with
    | zero => exact hfi a (by simp)
    | succ k => simpa using ih k (fun x hx => hfi x (by simp [hx]))

/-- Helper: adding a nonnegative decrease keeps every importance entry
nonnegative. -/
theorem updAdd_nonneg (fi : List ℚ) (c : Nat) (v : ℚ) (hfi : ∀ x ∈ fi, 0 ≤ x)
    (hv : 0 ≤ v) : ∀ x ∈ updAdd fi c v, 0 ≤ x := by
  intro x hx
  rcases List.mem_or_eq_of_mem_set hx with hmem | rfl
  · exact hfi x hmem
  · exact add_nonneg (getD_nonneg fi c hfi) hv

/-- Helper: writing an index's own value back is the identity. -/
theorem set_getD_self (fi : List ℚ) (c : Nat) : fi.set c (fi.getD c 0) = fi := by
  induction fi generalizing c with
  | nil => simp
  | cons a l ih =>
    cases c with
    | zero => simp
    | succ k =>
      simp only [List.getD_cons_succ, List.set_cons_succ, ih k]

/-- Helper: adding a zero decrease leaves the importances unchanged. -/
theorem updAdd_zero (fi : List ℚ) (c : Nat) : updAdd fi c 0 = fi := by
  unfold updAdd
  rw [add_zero, set_getD_self]

/-- Helper: along the build, the importance vector keeps all entries
nonnegative, and a call that returns a leaf leaves it unchanged. -/
theorem build_fi_inv (O : Oracles) (cfg : FitCtx) :
    ∀ (fuel : Nat) (rows : List (Row × ℚ)) (depth : Nat) (st : BState),
    ((∀ v ∈ st.fi, 0 ≤ v) →
        ∀ v ∈ (buildTreeF O cfg fuel rows depth st).2.fi, 0 ≤ v)
  ∧ (∀ val, (buildTreeF O cfg fuel rows depth st).1 = Node.leaf val →
        (buildTreeF O cfg fuel rows depth st).2.fi = st.fi) := by
  intro fuel
  induction fuel with
  | zero =>
    intro rows depth st
    exact ⟨fun h v hv => h v hv, fun val _ => rfl⟩
  | succ fuel ih =>
    intro rows depth st
    simp only [buildTreeF, buildStep]
    split
    · rename_i hguard
      have hrows : rows ≠ [] := by
        intro hcon
        rw [hcon] at hguard
        simp at hguard
      split
      · exact ⟨fun h v hv => h v hv, fun val _ => rfl⟩
      · rename_i cb heq
        split
        · rename_i halpha
          split
          · rename_i hne
            constructor
            · intro h v hv
              refine (ih _ (depth + 1) _).1 ?_ v hv
              intro w hw
              refine (ih _ (depth + 1) _).1 ?_ w hw
              intro x hx
              exact updAdd_nonneg st.fi cb.1 _ h
                (splitterC_imp_nonneg O cfg rows cb.1 st.fi hrows) x hx
            · intro val hval
              exact absurd hval (by simp)
          · rename_i hne
            constructor
            · intro h v hv
              exact updAdd_nonneg st.fi cb.1 _ h
                (splitterC_imp_nonneg O cfg rows cb.1 st.fi hrows) v hv
            · intro val _
              show updAdd st.fi cb.1 (splitterC O cfg rows rows.length cb.1 st.fi).1 = st.fi
              have hz : (splitterC O cfg rows rows.length cb.1 st.fi).1 = 0 := by
                apply splitterC_imp_zero O cfg rows cb.1 st.fi hrows
                rcases not_and_or.mp hne with h | h
                · exact Or.inl (not_not.mp h)
                · exact Or.inr (not_not.mp h)
              rw [hz, updAdd_zero]
        · exact ⟨fun h v hv => h v hv, fun val _ => rfl⟩
    · exact ⟨fun h v hv => h v hv, fun val _ => rfl⟩

/-- C8 counterexample: a tree whose root did split (p-value 0 accepted,
both children nonempty) yet whose feature importances stay all-zero and do
not sum to 1: the single split's impurity decrease is 0, so "at least one
split occurred" does not imply the vector is normalized to 1. -/
theorem C8_split_with_zero_importances :
    isInternal C8t.root = true
  ∧ C8t.featureImportances = [0]
  ∧ C8t.featureImportances.sum ≠ 1 := by with_unfolding_all decide

/-- C8 (amended): after every `Tree.fit` call, every entry of
`feature_importances` is nonnegative; the vector sums to exactly 1
whenever its sum is nonzero (equivalently, whenever some accumulated
impurity decrease was positive: a tree can split and still end all-zero
when every decrease is 0); and it stays the all-zero vector whenever the
tree is a single leaf. -/
theorem C8_feature_importances (O : Oracles) (ts : TreeState) (X : Mat) (y : List ℚ)
    (labels : Option (List ℚ)) :
    (∀ v ∈ (fitTreeC O ts X y labels).1.featureImportances, 0 ≤ v)
  ∧ ((fitTreeC O ts X y labels).1.featureImportances.sum ≠ 0 →
      (fitTreeC O ts X y labels).1.featureImportances.sum = 1)
  ∧ (∀ val, (fitTreeC O ts X y labels).1.root = Node.leaf val →
      (fitTreeC O ts X y labels).1.featureImportances
        = List.replicate (X.headD []).length 0) := by
  have hshape : (fitTreeC O ts X y labels).1.featureImportances
      = (if 0 < (rawFI O ts X y labels).sum
         then (rawFI O ts X y labels).map (fun v => v / (rawFI O ts X y labels).sum)
         else rawFI O ts X y labels) := rfl
  have hroot : (fitTreeC O ts X y labels).1.root
      = (buildTree O (fitCtxOf O ts X y labels) (X.zip y) 0
          { counter := ts.splitterCounter, fi := List.replicate (X.headD []).length 0 }).1 := rfl
  have hz : ∀ v ∈ (List.replicate (X.headD []).length (0 : ℚ)), 0 ≤ v := by
    intro v hv
    rw [List.eq_of_mem_replicate hv]
  have hraw : ∀ v ∈ rawFI O ts X y labels, 0 ≤ v :=
    (build_fi_inv O (fitCtxOf O ts X y labels) (X.zip y).length (X.zip y) 0
      { counter := ts.splitterCounter, fi := List.replicate (X.headD []).length 0 }).1 hz
  refine ⟨?_, ?_, ?_⟩
  · rw [hshape]
    split
    · rename_i hpos
      intro v hv
      rcases List.mem_map.mp hv with ⟨w, hw, rfl⟩
      exact div_nonneg (hraw w hw) hpos.le
    · exact hraw
  · rw [hshape]
    split
    · rename_i hpos
      intro _
      rw [sum_map_div, div_self hpos.ne']
    · rename_i hpos
      intro hne
      have h0 : (0 : ℚ) ≤ (rawFI O ts X y labels).sum := List.sum_nonneg hraw
      exact absurd (le_antisymm (not_lt.mp hpos) h0) hne
  · intro val hval
    rw [hroot] at hval
    have hfi2 : rawFI O ts X y labels = List.replicate (X.headD []).length 0 :=
      (build_fi_inv O (fitCtxOf O ts X y labels) (X.zip y).length (X.zip y) 0
        { counter := ts.splitterCounter, fi := List.replicate (X.headD []).length 0 }).2 val hval
    have hsum0 : (rawFI O ts X y labels).sum = 0 := by
      rw [hfi2]
      simp
    rw [hshape, if_neg (by rw [hsum0]; exact lt_irrefl 0)]
    exact hfi2

/-- Helper: membership in an ordered insertion. -/
theorem mem_insSorted (a b : ℚ) : ∀ (l : List ℚ), b ∈ insSorted a l ↔ b = a ∨ b ∈ l
  | [] => by simp [insSorted]
  | c :: cs => by
    simp only [insSorted]
    split
    · simp
    · rw [List.mem_cons, List.mem_cons, mem_insSorted a b cs]
      tauto

/-- Helper: ordered insertion keeps distinctness. -/
theorem insSorted_nodup (a : ℚ) : ∀ (l : List ℚ), l.Nodup → a ∉ l →
    (insSorted a l).Nodup
  | [] => by simp [insSorted]
  | c :: cs => by
    intro hnd hna
    simp only [insSorted]
    split
    · exact List.Nodup.cons (by simpa using hna) hnd
    · rcases List.nodup_cons.mp hnd with ⟨hc, hcs⟩
      refine List.nodup_cons.mpr ⟨?_, insSorted_nodup a cs hcs (fun h => hna (by simp [h]))⟩
      rw [mem_insSorted]
      push_neg
      exact ⟨fun h => hna (by simp [h.symm]), hc⟩

/-- Helper: membership in the sorted list. -/
theorem mem_sortQ (b : ℚ) : ∀ (l : List ℚ), b ∈ sortQ l ↔ b ∈ l
  | [] => by simp [sortQ]
  | c :: cs => by
    show b ∈ insSorted c (sortQ cs) ↔ _
    rw [mem_insSorted, mem_sortQ b cs]
    simp

/-- Helper: sorting keeps distinctness. -/
theorem sortQ_nodup : ∀ (l : List ℚ), l.Nodup → (sortQ l).Nodup
  | [] => fun _ => by simp [sortQ]
  | c :: cs => by
    intro hnd
    rcases List.nodup_cons.mp hnd with ⟨hc, hcs⟩
    show (insSorted c (sortQ cs)).Nodup
    exact insSorted_nodup c (sortQ cs) (sortQ_nodup cs hcs)
      (fun h => hc ((mem_sortQ c cs).mp h))

/-- Helper: `np.unique` lists exactly the values of `y`. -/
theorem mem_npUnique (b : ℚ) (y : List ℚ) : b ∈ npUnique y ↔ b ∈ y := by
  rw [npUnique, mem_sortQ, List.mem_dedup]

/-- Helper: `np.unique` is duplicate-free. -/
theorem npUnique_nodup (y : List ℚ) : (npUnique y).Nodup :=
  sortQ_nodup _ (List.nodup_dedup y)

/-- Helper: `np.unique` of a nonempty list is nonempty. -/
theorem npUnique_ne_nil (y : List ℚ) (hy : y ≠ []) : npUnique y ≠ [] := by
  cases y with
  | nil => exact absurd rfl hy
  | cons a t =>
    exact List.ne_nil_of_mem ((mem_npUnique a (a :: t)).mpr (by simp))

/-- Helper: the positions `np.where(y == v)[0]` finds. -/
theorem mem_whereEq (i : Nat) (y : List ℚ) (v : ℚ) :
    i ∈ whereEq y v ↔ i < y.length ∧ y.getD i 0 = v := by
  rw [whereEq, List.mem_filter, List.mem_range]
  simp

/-- Helper: indexing inside the list returns one of its entries. -/
theorem getD_mem (y : List ℚ) (i : Nat) (h : i < y.length) : y.getD i 0 ∈ y := by
  induction y generalizing i with
  | nil => simp at h
  | cons a t ih =>
    cases i with
    | zero => simp
    | succ k =>
      have : k < t.length := by simpa using h
      simpa using Or.inr (ih k this)

/-- Helper: a value of `y` occurs at some position. -/
theorem whereEq_ne_nil (y : List ℚ) (v : ℚ) (hv : v ∈ y) : whereEq y v ≠ [] := by
  rcases List.mem_iff_getElem.mp hv with ⟨i, hi, hget⟩
  have : i ∈ whereEq y v := by
    rw [mem_whereEq]
    refine ⟨hi, ?_⟩
    rw [List.getD_eq_getElem y 0 hi]
    exact hget
  exact List.ne_nil_of_mem this

/-- Helper: membership in a concatenation of index blocks. -/
theorem mem_listConcat (x : Nat) : ∀ (ls : List (List Nat)),
    x ∈ listConcat ls ↔ ∃ l ∈ ls, x ∈ l
  | [] => by simp [listConcat]
  | l :: ls => by
    show x ∈ l ++ listConcat ls ↔ _
    rw [List.mem_append, mem_listConcat x ls]
    simp

/-- Helper: a concatenation with one nonempty block is nonempty. -/
theorem listConcat_ne_nil (ls : List (List Nat)) (l : List Nat) (hl : l ∈ ls)
    (hne : l ≠ []) : listConcat ls ≠ [] := by
  rcases List.exists_mem_of_ne_nil l hne with ⟨x, hx⟩
  exact List.ne_nil_of_mem ((mem_listConcat x ls).mpr ⟨l, hl, hx⟩)

/-- Helper: a lower bound of every entry bounds the running minimum. -/
theorem minQ_ge (q : ℚ) : ∀ (L : List ℚ), (∀ x ∈ L, q ≤ x) → L ≠ [] → q ≤ minQ L
  | [], _, hne => absurd rfl hne
  | [a], h, _ => h a (by simp)
  | a :: b :: r, h, _ => by
    show q ≤ min a (minQ (b :: r))
    exact le_min (h a (by simp)) (minQ_ge q (b :: r) (fun x hx => h x (by simp [hx])) (by simp))

/-- Helper: every class of `y` holds at least a `1/len(y)` fraction. -/
theorem pFreq_ge (y : List ℚ) (v : ℚ) (hv : v ∈ y) :
    1 / (y.length : ℚ) ≤ pFreq y v := by
  have hn : (0 : ℚ) < (y.length : ℚ) := by
    have := List.length_pos.mpr (List.ne_nil_of_mem hv)
    exact_mod_cast this
  rw [pFreq_eq, div_le_div_iff_of_pos_right hn]
  have : v ∈ y.filter (fun w => decide (w = v)) := by
    rw [List.mem_filter]
    simp [hv]
  have hlen := List.length_pos.mpr (List.ne_nil_of_mem this)
  unfold cntQ
  exact_mod_cast hlen

/-- Helper: `int(np.floor(min_class_p * n))` is at least 1 for the actual
minimum class proportion of a nonempty label vector. -/
theorem balanced_size_pos (y : List ℚ) (hy : y ≠ []) :
    0 < (⌊minQ ((npUnique y).map (pFreq y)) * (y.length : ℚ)⌋).toNat := by
  have hn : (0 : ℚ) < (y.length : ℚ) := by
    have := List.length_pos.mpr hy
    exact_mod_cast this
  have hmin : 1 / (y.length : ℚ) ≤ minQ ((npUnique y).map (pFreq y)) := by
    apply minQ_ge
    · intro x hx
      rcases List.mem_map.mp hx with ⟨v, hv, rfl⟩
      exact pFreq_ge y v ((mem_npUnique v y).mp hv)
    · simpa using npUnique_ne_nil y hy
  have h1 : (1 : ℚ) ≤ minQ ((npUnique y).map (pFreq y)) * (y.length : ℚ) := by
    have := mul_le_mul_of_nonneg_right hmin hn.le
    rw [one_div, inv_mul_cancel₀ hn.ne'] at this
    exact this
  have h2 : (1 : ℤ) ≤ ⌊minQ ((npUnique y).map (pFreq y)) * (y.length : ℚ)⌋ := by
    rw [Int.le_floor]
    exact_mod_cast h1
  omega

/-- Helper: counting in a longer list adds the head's indicator. -/
theorem cntQ_cons (a : ℚ) (y : List ℚ) (l : ℚ) :
    cntQ (a :: y) l = cntQ y l + (if a = l then 1 else 0) := by
  unfold cntQ
  rw [List.filter_cons]
  by_cases h : a = l <;> simp [h]

/-- Helper: the indicator of a value sums to 0 over a list avoiding it. -/
theorem sum_ite_eq_zero (a : ℚ) : ∀ (L : List ℚ), a ∉ L →
    (L.map (fun l => if a = l then (1 : ℚ) else 0)).sum = 0
  | [], _ => by simp
  | b :: L, h => by
    have hab : a ≠ b := fun hc => h (by simp [hc])
    simp only [List.map_cons, List.sum_cons, if_neg hab]
    rw [sum_ite_eq_zero a L (fun hc => h (by simp [hc]))]
    ring

/-- Helper: the indicator of a value sums to 1 over a duplicate-free list
holding it. -/
theorem sum_ite_eq_one (a : ℚ) : ∀ (L : List ℚ), L.Nodup → a ∈ L →
    (L.map (fun l => if a = l then (1 : ℚ) else 0)).sum = 1
  | [], _, h => by simp at h
  | b :: L, hnd, h => by
    rcases List.nodup_cons.mp hnd with ⟨hb, hL⟩
    by_cases hab : a = b
    · subst hab
      simp only [List.map_cons, List.sum_cons, if_pos rfl]
      rw [sum_ite_eq_zero a L hb]
      simp
    · have haL : a ∈ L := by
        rcases List.mem_cons.mp h with h | h
        · exact absurd h hab
        · exact h
      simp only [List.map_cons, List.sum_cons, if_neg hab]
      rw [sum_ite_eq_one a L hL haL]
      ring

/-- Helper: the per-class counts over a covering duplicate-free class list
sum to the number of samples. -/
theorem sum_cntQ (L : List ℚ) (hnd : L.Nodup) : ∀ (y : List ℚ), (∀ v ∈ y, v ∈ L) →
    (L.map (fun l => cntQ y l)).sum = (y.length : ℚ)
  | [], _ => by
    have : L.map (fun l => cntQ [] l) = L.map (fun _ => (0 : ℚ)) :=
      List.map_congr_left (fun l _ => by simp [cntQ])
    simp [this]
  | a :: y, hcov => by
    have hmap : L.map (fun l => cntQ (a :: y) l)
        = L.map (fun l => cntQ y l + (if a = l then (1 : ℚ) else 0)) :=
      List.map_congr_left (fun l _ => cntQ_cons a y l)
    rw [hmap, sum_map_add, sum_cntQ L hnd y (fun v hv => hcov v (by simp [hv])),
      sum_ite_eq_one a L hnd (hcov a (by simp))]
    simp only [List.length_cons]
    push_cast
    ring

/-- Helper: a constant divisor moves out of a mapped sum. -/
theorem sum_map_div_fun (L : List ℚ) (f : ℚ → ℚ) (s : ℚ) :
    (L.map (fun c => f c / s)).sum = (L.map f).sum / s := by
  induction L with
  | nil => simp
  | cons a t ih => simp [ih, add_div]

/-- Helper: a node estimate over a covering duplicate-free class list is a
probability vector: it sums to 1. -/
theorem estimate_proba_sum_one (L y : List ℚ) (hnd : L.Nodup)
    (hcov : ∀ v ∈ y, v ∈ L) (hy : y ≠ []) : (estimate_proba L y).sum = 1 := by
  have hn : (0 : ℚ) < (y.length : ℚ) := by
    have := List.length_pos.mpr hy
    exact_mod_cast this
  show (L.map (fun l => cntQ y l / (y.length : ℚ))).sum = 1
  rw [sum_map_div_fun, sum_cntQ L hnd y hcov, div_self hn.ne']

/-- Helper: the facts about a terminal node's value. -/
theorem leafNode_values_fact (cfg : FitCtx) (rows : List (Row × ℚ))
    (hnd : cfg.labels.Nodup) (hrows : rows ≠ [])
    (hcov : ∀ rc ∈ rows, rc.2 ∈ cfg.labels) :
    ∀ v ∈ leafValues (leafNode cfg rows), v.sum = 1 ∧ v.length = cfg.labels.length := by
  intro v hv
  simp only [leafNode, leafValues, List.mem_singleton] at hv
  subst hv
  constructor
  · apply estimate_proba_sum_one cfg.labels (labelsOf rows) hnd
    · intro w hw
      rcases List.mem_map.mp hw with ⟨rc, hrc, rfl⟩
      exact hcov rc hrc
    · simp only [labelsOf, ne_eq, List.map_eq_nil_iff]
      exact hrows
  · simp [estimate_proba]

/-- Helper: every leaf value of a built tree over nonempty covered rows is
a probability vector of the class-list length. -/
theorem build_leafValues (O : Oracles) (cfg : FitCtx) (hnd : cfg.labels.Nodup) :
    ∀ (fuel : Nat) (rows : List (Row × ℚ)) (depth : Nat) (st : BState),
    rows ≠ [] → (∀ rc ∈ rows, rc.2 ∈ cfg.labels) →
    ∀ v ∈ leafValues (buildTreeF O cfg fuel rows depth st).1,
      v.sum = 1 ∧ v.length = cfg.labels.length := by
  intro fuel
  induction fuel with
  | zero =>
    intro rows depth st hrows hcov
    exact leafNode_values_fact cfg rows hnd hrows hcov
  | succ fuel ih =>
    intro rows depth st hrows hcov
    simp only [buildTreeF, buildStep]
    split
    · rename_i hguard
      split
      · exact leafNode_values_fact cfg rows hnd hrows hcov
      · rename_i cb heq
        split
        · rename_i halpha
          split
          · rename_i hne
            intro v hv
            simp only [leafValues, List.mem_append] at hv
            have hcovL : ∀ rc ∈ (splitterC O cfg rows rows.length cb.1 st.fi).2.2.1,
                rc.2 ∈ cfg.labels := by
              intro rc hrc
              rw [(splitterC_parts O cfg rows rows.length cb.1 st.fi).1] at hrc
              exact hcov rc (List.mem_of_mem_filter hrc)
            have hcovR : ∀ rc ∈ (splitterC O cfg rows rows.length cb.1 st.fi).2.2.2.1,
                rc.2 ∈ cfg.labels := by
              intro rc hrc
              rw [(splitterC_parts O cfg rows rows.length cb.1 st.fi).2] at hrc
              exact hcov rc (List.mem_of_mem_filter hrc)
            rcases hv with hv | hv
            · exact ih _ (depth + 1) _ hne.1 hcovL v hv
            · exact ih _ (depth + 1) _ hne.2 hcovR v hv
          · exact leafNode_values_fact cfg rows hnd hrows hcov
        · exact leafNode_values_fact cfg rows hnd hrows hcov
    · exact leafNode_values_fact cfg rows hnd hrows hcov

/-- Helper: prediction walks to one of the tree's leaf values. -/
theorem predictLabel_mem_leafValues : ∀ (nd : Node) (x : Row),
    predictLabelNode nd x ∈ leafValues nd
  | .leaf v, _ => by simp [predictLabelNode, leafValues]
  | .internal c pv th im l r, x => by
    simp only [predictLabelNode, leafValues]
    split
    · exact List.mem_append_left _ (predictLabel_mem_leafValues l x)
    · exact List.mem_append_right _ (predictLabel_mem_leafValues r x)

/-- Helper: the leaf-value facts lifted to a fitted tree. -/
theorem fitTree_leafValues (O : Oracles) (ts : TreeState) (X : Mat) (y : List ℚ)
    (labels : Option (List ℚ)) (hX : X ≠ []) (hy : y ≠ [])
    (hnd : (labels.getD (npUnique y)).Nodup)
    (hcov : ∀ v ∈ y, v ∈ labels.getD (npUnique y)) :
    ∀ v ∈ leafValues (fitTreeC O ts X y labels).1.root,
      v.sum = 1 ∧ v.length = (labels.getD (npUnique y)).length := by
  have hlab : (fitCtxOf O ts X y labels).labels = labels.getD (npUnique y) := by
    cases labels <;> rfl
  have hzip : X.zip y ≠ [] := by
    cases X with
    | nil => exact absurd rfl hX
    | cons a t =>
      cases y with
      | nil => exact absurd rfl hy
      | cons b s => simp
  have hcov2 : ∀ rc ∈ X.zip y, rc.2 ∈ (fitCtxOf O ts X y labels).labels := by
    intro rc hrc
    rw [hlab]
    exact hcov rc.2 (List.of_mem_zip hrc).2
  have hmain := build_leafValues O (fitCtxOf O ts X y labels)
    (by rw [hlab]; exact hnd) (X.zip y).length (X.zip y) 0
    { counter := ts.splitterCounter, fi := List.replicate (X.headD []).length 0 }
    hzip hcov2
  intro v hv
  have h2 := hmain v hv
  rw [hlab] at h2
  exact h2

/-- Helper: a pair of the enumeration carries an element of the list. -/
theorem enum_snd_mem (l : List ℚ) (kl : Nat × ℚ) (h : kl ∈ l.enum) : kl.2 ∈ l :=
  List.getElem?_mem (List.mem_enum_iff_getElem?.mp h)

/-- Helper: the enumeration of a nonempty list is nonempty. -/
theorem enum_ne_nil (l : List ℚ) (hl : l ≠ []) : l.enum ≠ [] := by
  intro hcon
  have hlen : l.enum.length = l.length := List.enum_length
  rw [hcon] at hlen
  exact hl (List.length_eq_zero.mp hlen.symm)

/-- Helper: indexing a list of naturals inside its length returns an entry. -/
theorem getD_mem_nat (l : List Nat) (i : Nat) (h : i < l.length) : l.getD i 0 ∈ l := by
  induction l generalizing i with
  | nil => simp at h
  | cons a t ih =>
    cases i with
    | zero => simp
    | succ k =>
      have : k < t.length := by simpa using h
      simpa using Or.inr (ih k this)

/-- Helper: the index set of a plain bootstrap draw is nonempty and lies
inside `arange(n)`. -/
theorem normal_idx_facts (O : Oracles) (hO : RngSpec O) (rs : Int) (n : Nat)
    (bayes : Bool) (hn : 0 < n) :
    normal_sampled_idx O rs n bayes ≠ []
  ∧ ∀ i ∈ normal_sampled_idx O rs n bayes, i < n := by
  constructor
  · have hlen := hO.bootLen rs 0 (List.range n) n bayes
    intro hcon
    unfold normal_sampled_idx at hcon
    rw [hcon] at hlen
    simp at hlen
    omega
  · intro i hi
    have hpool : List.range n ≠ [] := by
      intro hcon
      rw [List.range_eq_nil] at hcon
      omega
    have := hO.bootMem rs 0 (List.range n) n bayes i hpool hi
    simpa using this

/-- Helper: the index set of a stratified bootstrap draw is nonempty and
lies inside the label positions. -/
theorem stratify_idx_facts (O : Oracles) (hO : RngSpec O) (rs : Int) (y : List ℚ)
    (bayes : Bool) (hy : y ≠ []) :
    listConcat (stratify_sampled_idx O rs y bayes) ≠ []
  ∧ ∀ i ∈ listConcat (stratify_sampled_idx O rs y bayes), i < y.length := by
  constructor
  · rcases List.exists_mem_of_ne_nil _ (enum_ne_nil _ (npUnique_ne_nil y hy)) with ⟨kl, hkl⟩
    have hvy : kl.2 ∈ y := (mem_npUnique kl.2 y).mp (enum_snd_mem _ kl hkl)
    have hpool := whereEq_ne_nil y kl.2 hvy
    have hplen : 0 < (whereEq y kl.2).length := List.length_pos.mpr hpool
    apply listConcat_ne_nil _ (O.bootChoice rs kl.1 (whereEq y kl.2) (whereEq y kl.2).length bayes)
    · exact List.mem_map_of_mem _ hkl
    · intro hcon
      have hlen := hO.bootLen rs kl.1 (whereEq y kl.2) (whereEq y kl.2).length bayes
      rw [hcon] at hlen
      simp at hlen
      omega
  · intro i hi
    rcases (mem_listConcat i _).mp hi with ⟨l, hl, hil⟩
    rcases List.mem_map.mp hl with ⟨kl, hkl, rfl⟩
    have hvy : kl.2 ∈ y := (mem_npUnique kl.2 y).mp (enum_snd_mem _ kl hkl)
    have hpool := whereEq_ne_nil y kl.2 hvy
    have := hO.bootMem rs kl.1 (whereEq y kl.2) (whereEq y kl.2).length bayes i hpool hil
    exact ((mem_whereEq i y kl.2).mp this).1

/-- Helper: the index set of a balanced bootstrap draw (at the actual
minimum class proportion) is nonempty and lies inside the label
positions. -/
theorem balanced_idx_facts (O : Oracles) (hO : RngSpec O) (rs : Int) (y : List ℚ)
    (bayes : Bool) (hy : y ≠ []) :
    listConcat (balanced_sampled_idx O rs y bayes (minQ ((npUnique y).map (pFreq y)))) ≠ []
  ∧ ∀ i ∈ listConcat (balanced_sampled_idx O rs y bayes (minQ ((npUnique y).map (pFreq y)))),
      i < y.length := by
  have hsz := balanced_size_pos y hy
  constructor
  · rcases List.exists_mem_of_ne_nil _ (enum_ne_nil _ (npUnique_ne_nil y hy)) with ⟨kl, hkl⟩
    apply listConcat_ne_nil _ (O.bootChoice rs kl.1 (whereEq y kl.2)
      (⌊minQ ((npUnique y).map (pFreq y)) * (y.length : ℚ)⌋).toNat bayes)
    · exact List.mem_map_of_mem _ hkl
    · intro hcon
      have hlen := hO.bootLen rs kl.1 (whereEq y kl.2)
        (⌊minQ ((npUnique y).map (pFreq y)) * (y.length : ℚ)⌋).toNat bayes
      rw [hcon] at hlen
      simp at hlen
      omega
  · intro i hi
    rcases (mem_listConcat i _).mp hi with ⟨l, hl, hil⟩
    rcases List.mem_map.mp hl with ⟨kl, hkl, rfl⟩
    have hvy : kl.2 ∈ y := (mem_npUnique kl.2 y).mp (enum_snd_mem _ kl hkl)
    have hpool := whereEq_ne_nil y kl.2 hvy
    have := hO.bootMem rs kl.1 (whereEq y kl.2) _ bayes i hpool hil
    exact ((mem_whereEq i y kl.2).mp this).1

/-- Helper: a tree fitted on index-selected rows with the global class set
has probability-vector leaves of the global class count. -/
theorem boot_fit_leaves (O : Oracles) (ts : TreeState) (X : Mat) (y : List ℚ)
    (idx : List Nat) (hidx : idx ≠ []) (hbound : ∀ j ∈ idx, j < y.length) :
    ∀ v ∈ leafValues (fitTreeC O ts (selectRows X idx) (selectLabels y idx)
        (some (npUnique y))).1.root,
      v.sum = 1 ∧ v.length = (npUnique y).length := by
  have hX2 : selectRows X idx ≠ [] := by
    simp only [selectRows, ne_eq, List.map_eq_nil_iff]
    exact hidx
  have hy2 : selectLabels y idx ≠ [] := by
    simp only [selectLabels, ne_eq, List.map_eq_nil_iff]
    exact hidx
  have hcov : ∀ v ∈ selectLabels y idx,
      v ∈ (some (npUnique y)).getD (npUnique (selectLabels y idx)) := by
    intro v hv
    rcases List.mem_map.mp hv with ⟨j, hj, rfl⟩
    simpa using (mem_npUnique _ y).mpr (getD_mem y j (hbound j hj))
  intro v hv
  have := fitTree_leafValues O ts (selectRows X idx) (selectLabels y idx)
    (some (npUnique y)) hX2 hy2 (by simpa using npUnique_nodup y) hcov v hv
  simpa using this

/-- Helper: the concatenation of a one-block list is that block. -/
theorem listConcat_singleton (l : List Nat) : listConcat [l] = l := by
  simp [listConcat]

/-- Helper: every estimator a forest fit produces has leaf values that sum
to 1 with one entry per global class. -/
theorem forest_estimator_leaves (O : Oracles) (hO : RngSpec O) (fs : ForestState)
    (X : Mat) (y : List ℚ) (hX : X ≠ []) (hy : y ≠ []) (hXy : X.length = y.length) :
    ∀ t ∈ (forestFitC O fs X y).estimators, ∀ v ∈ leafValues t.root,
      v.sum = 1 ∧ v.length = (npUnique y).length := by
  intro t ht
  rcases List.mem_map.mp ht with ⟨i, _, rfl⟩
  have hXpos : 0 < X.length := List.length_pos.mpr hX
  have hcovU : ∀ v ∈ y, v ∈ npUnique y := fun v hv => (mem_npUnique v y).mpr hv
  simp only [parallelFitClassifier]
  split
  · rename_i hboot
    split
    · rename_i hcw
      rcases balanced_idx_facts O hO (fs.randomState * ((i : Int) + 1)) y fs.bayes hy
        with ⟨hne2, hmem2⟩
      exact boot_fit_leaves O _ X y _ hne2 hmem2
    · rename_i hcw
      rcases stratify_idx_facts O hO (fs.randomState * ((i : Int) + 1)) y fs.bayes hy
        with ⟨hne2, hmem2⟩
      exact boot_fit_leaves O _ X y _ hne2 hmem2
    · rename_i hcw
      rcases normal_idx_facts O hO (fs.randomState * ((i : Int) + 1)) X.length fs.bayes hXpos
        with ⟨hne2, hmem2⟩
      rw [listConcat_singleton]
      apply boot_fit_leaves O _ X y _ hne2
      intro j hj
      rw [← hXy]
      exact hmem2 j hj
  · rename_i hboot
    intro v hv
    have := fitTree_leafValues O _ X y none hX hy
      (by simpa using npUnique_nodup y) (by simpa using hcovU) v hv
    simpa using this

/-- Helper: the sum of an elementwise row addition (equal lengths). -/
theorem addVec_sum : ∀ (a b : Row), a.length = b.length →
    (addVec a b).sum = a.sum + b.sum
  | [], [], _ => by simp [addVec]
  | [], _ :: _, h => by simp at h
  | _ :: _, [], h => by simp at h
  | x :: t, u :: s, h => by
    have ht : t.length = s.length := by simpa using h
    show ((x + u) :: addVec t s).sum = (x :: t).sum + (u :: s).sum
    rw [List.sum_cons, addVec_sum t s ht, List.sum_cons, List.sum_cons]
    ring

/-- Helper: a row of an elementwise matrix addition comes from a row of
each operand. -/
theorem mem_zipWith_addVec : ∀ (acc pr : Mat) (r : Row),
    r ∈ List.zipWith addVec acc pr → ∃ a b, a ∈ acc ∧ b ∈ pr ∧ r = addVec a b := by
  intro acc
  induction acc with
  | nil =>
    intro pr r h
    simp at h
  | cons a t ih =>
    intro pr r h
    cases pr with
    | nil => simp at h
    | cons b pt =>
      rcases List.mem_cons.mp h with h | h
      · exact ⟨a, b, by simp, by simp, h⟩
      · rcases ih pt r h with ⟨a2, b2, h1, h2, h3⟩
        exact ⟨a2, b2, by simp [h1], by simp [h2], h3⟩

/-- Helper: folding the tree predictions over the accumulator adds one to
every row sum per estimator and keeps row lengths. -/
theorem foldl_accum_facts (Xt : Mat) (k : Nat) :
    ∀ (es : List FittedTree),
    (∀ t ∈ es, ∀ v ∈ leafValues t.root, v.sum = 1 ∧ v.length = k) →
    ∀ (acc : Mat) (c : ℚ), (∀ r ∈ acc, r.sum = c ∧ r.length = k) →
    ∀ r ∈ es.foldl (fun o t => List.zipWith addVec o (treePredictProba t Xt)) acc,
      r.sum = c + es.length ∧ r.length = k := by
  intro es
  induction es with
  | nil =>
    intro _ acc c hacc r hr
    have := hacc r hr
    simpa using this
  | cons t ts ih =>
    intro hes acc c hacc r hr
    have hstep : ∀ r2 ∈ List.zipWith addVec acc (treePredictProba t Xt),
        r2.sum = c + 1 ∧ r2.length = k := by
      intro r2 hr2
      rcases mem_zipWith_addVec acc _ r2 hr2 with ⟨a, b, ha, hb, rfl⟩
      rcases hacc a ha with ⟨hasum, halen⟩
      have hbl : b ∈ leafValues t.root := by
        rcases List.mem_map.mp hb with ⟨x, _, rfl⟩
        exact predictLabel_mem_leafValues t.root x
      rcases hes t (by simp) b hbl with ⟨hbsum, hblen⟩
      constructor
      · rw [addVec_sum a b (by rw [halen, hblen]), hasum, hbsum]
      · show (List.zipWith (· + ·) a b).length = k
        rw [List.length_zipWith, halen, hblen]
        exact Nat.min_self k
    have hmain := ih (fun t2 ht2 => hes t2 (by simp [ht2])) _ (c + 1) hstep r hr
    rcases hmain with ⟨hsum, hlen⟩
    refine ⟨?_, hlen⟩
    rw [hsum]
    simp only [List.length_cons]
    push_cast
    ring

/-- Helper: folding the tree predictions keeps the number of rows. -/
theorem foldl_accum_length (Xt : Mat) : ∀ (es : List FittedTree) (acc : Mat),
    acc.length = Xt.length →
    (es.foldl (fun o t => List.zipWith addVec o (treePredictProba t Xt)) acc).length
      = Xt.length
  | [], _, h => h
  | t :: ts, acc, h => by
    apply foldl_accum_length Xt ts
    rw [List.length_zipWith, h]
    simp [treePredictProba]

/-- Helper: the zero accumulator rows. -/
theorem replicate_rows_fact (nrows k : Nat) :
    ∀ r ∈ List.replicate nrows (List.replicate k (0 : ℚ)), r.sum = 0 ∧ r.length = k := by
  intro r hr
  rw [List.eq_of_mem_replicate hr]
  constructor
  · simp
  · simp

/-- Helper: the concrete oracle's bootstrap choice meets the numpy draw
constraints. -/
theorem rngSpec_oracleSplit : RngSpec oracleSplit := by
  constructor
  · intro s k pool sz by2
    simp [oracleSplit]
  · intro s k pool sz by2 i hpool hi
    simp only [oracleSplit] at hi
    rcases List.mem_map.mp hi with ⟨j, _, rfl⟩
    have hlen : 0 < pool.length := List.length_pos.mpr hpool
    exact getD_mem_nat pool (j % pool.length) (Nat.mod_lt j hlen)

/-- C9: for every Tree fitted on (X, y) whose class set (duplicate-free,
as `np.unique` produces and as "set" requires) contains every label of y,
every row of `predict_proba` sums to 1; and for every fitted Forest, every
row of the probability output of `predict_proba` sums to 1. -/
theorem C9_predict_proba_rows (O : Oracles) (hO : RngSpec O) (ts : TreeState)
    (X : Mat) (y : List ℚ) (labels : Option (List ℚ)) (Xt : Mat)
    (hX : X ≠ []) (hy : y ≠ []) (hXy : X.length = y.length)
    (hnd : (labels.getD (npUnique y)).Nodup)
    (hcov : ∀ v ∈ y, v ∈ labels.getD (npUnique y))
    (fs : ForestState) (hne : 0 < fs.nEstimators) :
    (∀ r ∈ treePredictProba (fitTreeC O ts X y labels).1 Xt, r.sum = 1)
  ∧ (∀ out, forestPredictProba (forestFitC O fs X y) Xt = Except.ok out →
      (∀ m, out = ProbaOut.matrix m → ∀ r ∈ m, r.sum = 1)
    ∧ (∀ v, out = ProbaOut.vector v → v.sum = 1)) := by
  constructor
  · intro r hr
    rcases List.mem_map.mp hr with ⟨x, _, rfl⟩
    exact (fitTree_leafValues O ts X y labels hX hy hnd hcov _
      (predictLabel_mem_leafValues _ x)).1
  · intro out hout
    have hests_len : (forestFitC O fs X y).estimators.length = fs.nEstimators := by
      simp [forestFitC]
    have hesne : (forestFitC O fs X y).estimators ≠ [] := by
      intro hcon
      rw [hcon] at hests_len
      simp at hests_len
      omega
    have hnC : (forestFitC O fs X y).nClasses = (npUnique y).length := by
      simp [forestFitC]
    by_cases hx1 : Xt.length = 1
    · cases hes : (forestFitC O fs X y).estimators with
      | nil => exact absurd hes hesne
      | cons t tsl =>
        have herr := accum_foldlM_err Xt t tsl
          (List.replicate Xt.length (List.replicate (forestFitC O fs X y).nClasses 0))
          (by simp [hx1])
        simp only [forestPredictProba, hes, herr, Bind.bind, Except.bind] at hout
        exact absurd hout (by simp)
    · have hfold := accum_foldlM_ok Xt hx1 (forestFitC O fs X y).estimators
        (List.replicate Xt.length (List.replicate (forestFitC O fs X y).nClasses 0))
        (by simp)
      simp only [forestPredictProba, hfold, Bind.bind, Except.bind] at hout
      have hacclen := foldl_accum_length Xt (forestFitC O fs X y).estimators
        (List.replicate Xt.length (List.replicate (forestFitC O fs X y).nClasses 0))
        (by simp)
      rw [if_neg (by rw [List.length_map, hacclen]; exact hx1)] at hout
      have hrows := foldl_accum_facts Xt (npUnique y).length
        (forestFitC O fs X y).estimators
        (forest_estimator_leaves O hO fs X y hX hy hXy)
        (List.replicate Xt.length (List.replicate (forestFitC O fs X y).nClasses 0)) 0
        (by rw [hnC]; exact replicate_rows_fact Xt.length (npUnique y).length)
      have hlen0 : ((forestFitC O fs X y).estimators.length : ℚ) ≠ 0 := by
        rw [hests_len]
        exact_mod_cast hne.ne'
      have hout2 : ProbaOut.matrix
          (((forestFitC O fs X y).estimators.foldl
              (fun o t => List.zipWith addVec o (treePredictProba t Xt))
              (List.replicate Xt.length
                (List.replicate (forestFitC O fs X y).nClasses 0))).map
            (fun row => row.map
              (fun v => v / ((forestFitC O fs X y).estimators.length : ℚ)))) = out :=
        Except.ok.inj hout
      constructor
      · intro m hm
        rw [← hout2] at hm
        injection hm with hmn
        intro r hr
        rw [← hmn] at hr
        rcases List.mem_map.mp hr with ⟨row, hrow, rfl⟩
        rcases hrows row hrow with ⟨hrs, _⟩
        rw [sum_map_div, hrs, zero_add, div_self hlen0]
      · intro v hv
        rw [← hout2] at hv
        exact absurd hv (by simp)

/-- C9 witness: the theorem at the concrete oracle (whose bootstrap choice
provably meets the draw constraints), a two-sample two-class dataset, a
two-row prediction input, and the 2-tree balanced Bayesian-bootstrap
forest configuration. -/
theorem C9_predict_proba_rows_witness :
    (∀ r ∈ treePredictProba (fitTreeC oracleSplit (treeStateOf C6Pok)
        [[0], [1]] [0, 1] none).1 [[0], [5]], r.sum = 1)
  ∧ (∀ out, forestPredictProba (forestFitC oracleSplit C9fs [[0], [1]] [0, 1])
        [[0], [5]] = Except.ok out →
      (∀ m, out = ProbaOut.matrix m → ∀ r ∈ m, r.sum = 1)
    ∧ (∀ v, out = ProbaOut.vector v → v.sum = 1)) :=
  C9_predict_proba_rows oracleSplit rngSpec_oracleSplit (treeStateOf C6Pok)
    [[0], [1]] [0, 1] none [[0], [5]]
    (by simp) (by simp) (by simp)
    (by with_unfolding_all decide) (by with_unfolding_all decide)
    C9fs (by with_unfolding_all decide)

/-- C10: `splitter_counter_` is set to 0 by the constructor and never reset
by `fit`, so a second `fit` of the same object on the same data resumes
the counter at its post-fit value, draws its column subsets from different
split-local seeds, and here builds a different tree (the first fit splits
on column 1, the second on column 0). -/
theorem C10_refit_not_identical :
    (treeInit C10P).toOption = some C10ts
  ∧ C10ts.splitterCounter = 0
  ∧ C10r1.2.splitterCounter = 1
  ∧ C10r2.2.splitterCounter = 2
  ∧ C10r1.1.root ≠ C10r2.1.root := by with_unfolding_all decide

end Citrees
